import Mathlib

/-!
Verification of the figma-context-extractor core against its specification.

This file gives a shallow embedding of the repository's core algorithms:

* the style-deduplication registry (`findOrCreateVar`, `generateVarId` from
  `src/extractors/built-in.ts` and `src/utils/common.ts`),
* the SVG-collapsing rewrite (`collapseSvgContainers`, `SVG_ELIGIBLE_TYPES`),
* the asset locator (`findImageAssets`, `hasImageFill` from `src/lib.ts`),
* the enrichment merger (`enrichNodesWithImages`, `enrichNode`,
  `enrichMetadataWithImages` from `src/lib.ts`),
* the bounded-concurrency executor (`runWithConcurrency` from
  `src/utils/common.ts`), modelled as an explicit event-interleaving
  state machine,
* the simplification pipeline (`simplifyRawFigmaObject`,
  `parseAPIResponse` from `src/extractors/design-extractor.ts`); the tree
  walker `extractFromDesign` (node-walker.ts) is not part of the provided
  sources and is modelled from the specification.

JavaScript strings are modelled as Lean `String`s over their character
lists; JavaScript objects used as string-keyed maps are modelled as
insertion-ordered association lists with unique keys (`Object.entries`
iterates string keys in insertion order, and assignment to an existing
key overwrites in place).  `Math.random`-based id generation is modelled
by an explicit stream of suffixes threaded through the computation.
-/

namespace Figma

/-! ## Style values and the style registry

`StyleTypes` in the source is the union of the simplified layout, text
style, fill list, stroke bundle and effect bundle produced by the
transformers.  All of these are non-recursive plain records or lists of
records; we model them by one inductive with a constructor per kind.
`JSON.stringify` equality of two such records (same kind, same field
order, same field values) coincides with structural equality of this
model. -/

/-- One entry of a simplified fill/stroke paint list (`parsePaint` output):
a kind tag (`SOLID`, `IMAGE`, ...) and an opaque payload string standing
for the remaining fields. -/
structure Paint where
  type : String
  payload : String
deriving DecidableEq, Repr

/-- A style value storable in `globalVars.styles`. -/
inductive StyleValue where
  | fills (ps : List Paint)
  | layout (fields : List (String × String))
  | strokes (colors : List Paint) (weight : String)
  | effects (fields : List (String × String))
  | text (fields : List (String × String))
deriving DecidableEq, Repr

/-- The JS object `globalVars.styles`, as an insertion-ordered association
list with unique keys. -/
abbrev Registry := List (String × StyleValue)

/-- Assignment `obj[k] = v` on a JS object: overwrite in place if the key
exists (keeping its position in insertion order), otherwise append. -/
def setKey : Registry → String → StyleValue → Registry
  | [], k, v => [(k, v)]
  | (k', v') :: rest, k, v =>
    if k' = k then (k', v) :: rest else (k', v') :: setKey rest k v

/-- Read `obj[k]` on a JS object. -/
def getKey : Registry → String → Option StyleValue
  | [], _ => none
  | (k', v') :: rest, k => if k' = k then some v' else getKey rest k

/-- The state of the `Math.random`-backed id generator of
`generateVarId`: an abstract stream of 6-character suffixes together with
a counter saying how many have been consumed.  Each call to the source's
`generateVarId` draws the next suffix from the stream. -/
structure IdGen where
  suffixes : Nat → String
  k : Nat

/-- Model of `generateVarId` (src/utils/common.ts:116): returns
`prefix + "_" + <6 random alphanumeric chars>`; the random characters are
the next suffix of the stream. -/
def generateVarId (gen : IdGen) (pfx : String) : String × IdGen :=
  (pfx ++ "_" ++ gen.suffixes gen.k, { gen with k := gen.k + 1 })

/-- Model of `findOrCreateVar` (src/extractors/built-in.ts:24): scan the
stored entries in insertion order for a structurally equal value; on a
match return the existing id and leave the registry untouched, otherwise
mint a new id and store the value under it. -/
def findOrCreateVar (gv : Registry) (gen : IdGen) (value : StyleValue)
    (pfx : String) : String × Registry × IdGen :=
  match gv.find? (fun p => p.2 == value) with
  | some p => (p.1, gv, gen)
  | none =>
    let minted := generateVarId gen pfx
    (minted.1, setKey gv minted.1 value, minted.2)

/-! ### Association-list helper lemmas -/

theorem setKey_fresh (gv : Registry) (k : String) (v : StyleValue)
    (h : k ∉ gv.map Prod.fst) : setKey gv k v = gv ++ [(k, v)] := by
  induction gv with
  | nil => rfl
  | cons p rest ih =>
    simp only [List.map_cons, List.mem_cons, not_or] at h
    obtain ⟨h1, h2⟩ := h
    cases p with
    | mk k' v' =>
      simp only [setKey, if_neg (fun hh : k' = k => h1 hh.symm), List.cons_append]
      rw [ih h2]

theorem keys_nodup_val_unique (gv : Registry) (hnodup : (gv.map Prod.fst).Nodup)
    {k : String} {a b : StyleValue} (ha : (k, a) ∈ gv) (hb : (k, b) ∈ gv) :
    a = b := by
  induction gv with
  | nil => cases ha
  | cons p rest ih =>
    simp only [List.map_cons, List.nodup_cons] at hnodup
    rcases List.mem_cons.mp ha with h1 | h1 <;>
      rcases List.mem_cons.mp hb with h2 | h2
    · exact congrArg Prod.snd (h1.trans h2.symm)
    · exact absurd (by simpa using List.mem_map_of_mem Prod.fst h2)
        (by simpa [← h1] using hnodup.1)
    · exact absurd (by simpa using List.mem_map_of_mem Prod.fst h1)
        (by simpa [← h2] using hnodup.1)
    · exact ih hnodup.2 h1 h2

theorem find?_some_facts {gv : Registry} {v : StyleValue} {p : String × StyleValue}
    (h : gv.find? (fun q => q.2 == v) = some p) : p ∈ gv ∧ p.2 = v := by
  refine ⟨List.mem_of_find?_eq_some h, ?_⟩
  have := List.find?_some h
  simpa using this

theorem find?_none_facts {gv : Registry} {v : StyleValue}
    (h : gv.find? (fun q => q.2 == v) = none) : ∀ p ∈ gv, p.2 ≠ v := by
  intro p hp
  have := List.find?_eq_none.mp h p hp
  simpa using this

theorem string_append_right_cancel {pfx a b : String}
    (h : pfx ++ "_" ++ a = pfx ++ "_" ++ b) : a = b := by
  have hd : (pfx ++ "_" ++ a).data = (pfx ++ "_" ++ b).data := congrArg String.data h
  simp only [String.data_append, List.append_assoc] at hd
  have h2 : ('_' :: a.data : List Char) = '_' :: b.data := by
    have := List.append_cancel_left hd
    simpa using this
  have h3 : a.data = b.data := by
    injection h2
  cases a; cases b; exact congrArg String.mk h3

theorem findOrCreateVar_found {gv : Registry} {gen : IdGen} {v : StyleValue}
    {pfx : String} {p : String × StyleValue}
    (h : gv.find? (fun q => q.2 == v) = some p) :
    findOrCreateVar gv gen v pfx = (p.1, gv, gen) := by
  simp [findOrCreateVar, h]

theorem findOrCreateVar_not_found {gv : Registry} {gen : IdGen} {v : StyleValue}
    {pfx : String}
    (h : gv.find? (fun q => q.2 == v) = none) :
    findOrCreateVar gv gen v pfx =
      (pfx ++ "_" ++ gen.suffixes gen.k,
       setKey gv (pfx ++ "_" ++ gen.suffixes gen.k) v,
       { gen with k := gen.k + 1 }) := by
  simp [findOrCreateVar, h, generateVarId]

/-- C2.  Registering a value structurally equal to an already-stored one
returns an id that the registry maps to that value and leaves the
registry unchanged; registering two distinct values (in either order, one
after the other) yields two distinct ids.  The hypotheses express that
the registry is a well-formed JS object (unique keys) and that the two
ids the random generator would mint are fresh, which holds with
overwhelming probability for 6-character random suffixes and is the
intended reading of the spec's random-id contract. -/
theorem registry_dedup_correct (gv : Registry) (gen : IdGen)
    (v1 v2 : StyleValue) (pfx : String)
    (hnodup : (gv.map Prod.fst).Nodup)
    (hne : v1 ≠ v2)
    (hf1 : pfx ++ "_" ++ gen.suffixes gen.k ∉ gv.map Prod.fst)
    (hinj : gen.suffixes gen.k ≠ gen.suffixes (gen.k + 1)) :
    (∀ id₀, (id₀, v1) ∈ gv →
      (findOrCreateVar gv gen v1 pfx).2.1 = gv ∧
      ((findOrCreateVar gv gen v1 pfx).1, v1) ∈ gv) ∧
    ((findOrCreateVar gv gen v1 pfx).1 ≠
      (findOrCreateVar (findOrCreateVar gv gen v1 pfx).2.1
        (findOrCreateVar gv gen v1 pfx).2.2 v2 pfx).1) := by
  constructor
  · intro id₀ hmem
    obtain ⟨p, hp⟩ := Option.isSome_iff_exists.mp
      (show (gv.find? (fun q => q.2 == v1)).isSome from
        List.find?_isSome.mpr ⟨(id₀, v1), hmem, beq_self_eq_true v1⟩)
    obtain ⟨hpmem, hpval⟩ := find?_some_facts hp
    constructor
    · simp [findOrCreateVar, hp]
    · have h1 : (findOrCreateVar gv gen v1 pfx).1 = p.1 := by
        simp [findOrCreateVar, hp]
      rw [h1]
      have hm : (p.1, p.2) ∈ gv := by simpa using hpmem
      rw [hpval] at hm
      exact hm
  · cases hfind1 : gv.find? (fun q => q.2 == v1) with
    | some p1 =>
      obtain ⟨hp1mem, hp1val⟩ := find?_some_facts hfind1
      simp only [findOrCreateVar, hfind1]
      cases hfind2 : gv.find? (fun q => q.2 == v2) with
      | some p2 =>
        obtain ⟨hp2mem, hp2val⟩ := find?_some_facts hfind2
        simp only [hfind2]
        intro heq
        apply hne
        have hp1' : (p1.1, p1.2) ∈ gv := by simpa using hp1mem
        have hp2' : (p2.1, p2.2) ∈ gv := by simpa using hp2mem
        rw [heq] at hp1'
        calc v1 = p1.2 := hp1val.symm
          _ = p2.2 := keys_nodup_val_unique gv hnodup hp1' hp2'
          _ = v2 := hp2val
      | none =>
        simp only [hfind2, generateVarId]
        intro heq
        apply hf1
        rw [← heq]
        exact List.mem_map_of_mem Prod.fst hp1mem
    | none =>
      have hgv' : setKey gv (pfx ++ "_" ++ gen.suffixes gen.k) v1 =
          gv ++ [(pfx ++ "_" ++ gen.suffixes gen.k, v1)] :=
        setKey_fresh gv _ v1 hf1
      simp only [findOrCreateVar, hfind1, generateVarId, hgv']
      cases hfind2 : (gv ++ [(pfx ++ "_" ++ gen.suffixes gen.k, v1)]).find?
          (fun q => q.2 == v2) with
      | some p2 =>
        obtain ⟨hp2mem, hp2val⟩ := find?_some_facts hfind2
        simp only [hfind2]
        intro heq
        rcases List.mem_append.mp hp2mem with hin | hin
        · apply hf1
          rw [heq]
          exact List.mem_map_of_mem Prod.fst hin
        · have hp2e : p2 = (pfx ++ "_" ++ gen.suffixes gen.k, v1) := by
            simpa using hin
          exact hne (by rw [← hp2val, hp2e])
      | none =>
        simp only [hfind2, generateVarId]
        intro heq
        exact hinj (string_append_right_cancel heq)

/-- Witness for `registry_dedup_correct` at a concrete registry, value
pair and suffix stream. -/
theorem registry_dedup_correct_witness :
    let gv : Registry := [("fill_AAAAAA", .fills [⟨"SOLID", "#fff"⟩])]
    let gen : IdGen := ⟨fun j => if j = 0 then "BBBBBB" else "CCCCCC", 0⟩
    let v1 : StyleValue := .fills [⟨"SOLID", "#fff"⟩]
    let v2 : StyleValue := .fills [⟨"IMAGE", "ref9"⟩]
    (∀ id₀, (id₀, v1) ∈ gv →
      (findOrCreateVar gv gen v1 "fill").2.1 = gv ∧
      ((findOrCreateVar gv gen v1 "fill").1, v1) ∈ gv) ∧
    ((findOrCreateVar gv gen v1 "fill").1 ≠
      (findOrCreateVar (findOrCreateVar gv gen v1 "fill").2.1
        (findOrCreateVar gv gen v1 "fill").2.2 v2 "fill").1) := by
  exact registry_dedup_correct _ _ _ _ _
    (by decide) (by decide) (by decide) (by decide)

/-! ## Simplified nodes and the SVG-collapsing rewrite -/

/-- The `downloadedImage` presentation bundle attached by the enrichment
merger (src/lib.ts:606). -/
structure EnrichedImage where
  filePath : String
  relativePath : String
  width : Nat
  height : Nat
  wasCropped : Bool
  markdown : String
  html : String
deriving DecidableEq, Repr

/-- The value of one optional extracted field of a `SimplifiedNode`:
either a style-registry reference id (layout/textStyle/fills/strokes/
effects) or a literal value (text, opacity, borderRadius, ...).  In
JavaScript both are plain strings; the tag records which kind of string
was stored. -/
inductive FieldVal where
  | ref (id : String)
  | lit (s : String)
deriving DecidableEq, Repr

/-- The string a `FieldVal` is in JavaScript. -/
def FieldVal.str : FieldVal → String
  | .ref id => id
  | .lit s => s

/-- A `SimplifiedNode`: `id`, `name`, `type`, the optional extracted
fields as an insertion-ordered association list, the children list, and
the optional `downloadedImage` added by enrichment. -/
inductive SNode where
  | mk (id name type : String) (fields : List (String × FieldVal))
       (children : List SNode) (downloadedImage : Option EnrichedImage)

def SNode.id : SNode → String
  | .mk i _ _ _ _ _ => i

def SNode.name : SNode → String
  | .mk _ n _ _ _ _ => n

def SNode.type : SNode → String
  | .mk _ _ t _ _ _ => t

def SNode.fields : SNode → List (String × FieldVal)
  | .mk _ _ _ f _ _ => f

def SNode.children : SNode → List SNode
  | .mk _ _ _ _ c _ => c

def SNode.downloadedImage : SNode → Option EnrichedImage
  | .mk _ _ _ _ _ d => d

/-- Model of `SVG_ELIGIBLE_TYPES` (src/extractors/built-in.ts:194): node
types that can be exported as SVG images; includes the synthetic
`IMAGE-SVG` marker itself so that collapsed containers cascade. -/
def SVG_ELIGIBLE_TYPES : List String :=
  ["IMAGE-SVG", "STAR", "LINE", "ELLIPSE", "REGULAR_POLYGON", "RECTANGLE"]

/-- Model of `collapseSvgContainers` (src/extractors/built-in.ts:214).
`nodeType` is the type of the original raw Figma node, `result` the
simplified node being built, `children` the processed children.  Returns
the (possibly type-rewritten) result together with the children list the
walker should keep.  The JS function mutates `result.type` and returns
the children; we return both. -/
def collapseSvgContainers (nodeType : String) (result : SNode)
    (children : List SNode) : SNode × List SNode :=
  let allChildrenAreSvgEligible :=
    children.all (fun child => SVG_ELIGIBLE_TYPES.contains child.type)
  if (nodeType = "FRAME" ∨ nodeType = "GROUP" ∨ nodeType = "INSTANCE") ∧
      allChildrenAreSvgEligible then
    (match result with
     | .mk i n _ f c d => SNode.mk i n "IMAGE-SVG" f c d, [])
  else
    (result, children)

/-! ## Raw nodes, extractors and the tree walker -/

/-- A raw Figma document node, restricted to the parts the core reads:
`id`, `name`, `type`, the optional `visible` flag, and the children.  All
other raw per-node data is only ever consumed inside the transformer
functions, which the extractor model below abstracts over. -/
inductive RawNode where
  | mk (id name type : String) (visible : Option Bool) (children : List RawNode)

def RawNode.id : RawNode → String
  | .mk i _ _ _ _ => i

def RawNode.name : RawNode → String
  | .mk _ n _ _ _ => n

def RawNode.type : RawNode → String
  | .mk _ _ t _ _ => t

def RawNode.visible : RawNode → Option Bool
  | .mk _ _ _ v _ => v

def RawNode.children : RawNode → List RawNode
  | .mk _ _ _ _ c => c

/-- Model of `isVisible` (src/utils/common.ts:185): the explicit flag,
defaulting to `true` when absent. -/
def isVisible (n : RawNode) : Bool :=
  n.visible.getD true

/-- Generic JS-object assignment `obj[k] = v` for string-keyed maps. -/
def alSet {α : Type} : List (String × α) → String → α → List (String × α)
  | [], k, v => [(k, v)]
  | (k', v') :: rest, k, v =>
    if k' = k then (k', v) :: rest else (k', v') :: alSet rest k v

/-- Generic `Object.assign(target, source)`: entries of `source` written
into `target` in order, later writes overwriting earlier ones. -/
def alAssign {α : Type} (target source : List (String × α)) :
    List (String × α) :=
  source.foldl (fun t p => alSet t p.1 p.2) target

/-- How one extracted field registers its data, per the registry contract
of the spec: anonymously through `findOrCreateVar` under a kind prefix,
or unconditionally under a source-provided human-readable style name
(the `getStyleName` path of the built-in extractors). -/
inductive RegKind where
  | anon (pfx : String)
  | named (nm : String)

/-- One write an extractor performs on its node's accumulator: a
style-bearing field (stored as a registry reference) or a plain literal
field. -/
inductive FieldOp where
  | style (field : String) (kind : RegKind) (v : StyleValue)
  | plain (field : String) (s : String)

/-- Modelled from the spec: an extractor (§4.2) is a pure function of the
raw node and its immediate parent that writes only to its own node's
accumulator and may register style values.  The concrete transformer
bodies behind the built-in extractors (`buildSimplifiedLayout`,
`parsePaint`, ... from `transformers/*.ts`) are not part of the provided
sources, so an extractor is modelled by the list of field writes it
performs, in order. -/
def Extractor : Type :=
  RawNode → Option RawNode → List FieldOp

/-- The call-scoped mutable state threaded through one simplification
call: the style registry and the id-generator state. -/
structure WalkSt where
  gv : Registry
  gen : IdGen

/-- Apply one extractor field write to the accumulator's field list and
the registry state. -/
def applyOp (st : WalkSt) (fields : List (String × FieldVal)) :
    FieldOp → WalkSt × List (String × FieldVal)
  | .style field (.anon pfx) v =>
    let r := findOrCreateVar st.gv st.gen v pfx
    (⟨r.2.1, r.2.2⟩, alSet fields field (.ref r.1))
  | .style field (.named nm) v =>
    (⟨setKey st.gv nm v, st.gen⟩, alSet fields field (.ref nm))
  | .plain field s =>
    (st, alSet fields field (.lit s))

/-- Run the field writes of all selected extractors, in order, against a
fresh accumulator's field list. -/
def applyOps (st : WalkSt) (fields : List (String × FieldVal)) :
    List FieldOp → WalkSt × List (String × FieldVal)
  | [] => (st, fields)
  | op :: rest =>
    let r := applyOp st fields op
    applyOps r.1 r.2 rest

/-- Traversal options: the optional depth bound, and whether the
`afterChildren` hook is installed (the repository's only hook is
`collapseSvgContainers`, wired in src/lib.ts:180). -/
structure TraversalOptions where
  maxDepth : Option Nat
  afterChildren : Bool

mutual
/-- Modelled from the spec: the tree walker (§4.4, `extractFromDesign` of
the missing node-walker.ts).  For each raw node it runs the selected
extractors in order into a fresh accumulator seeded with `id`, `name`,
`type`; if the depth bound is reached it omits children entirely;
otherwise it recurses into the children first and then applies the
`afterChildren` hook, whose returned children become the node's final
children.  Sibling order is preserved. -/
def walkNode (exts : List Extractor) (opts : TraversalOptions)
    (parent : Option RawNode) (depth : Nat) (st : WalkSt) :
    RawNode → SNode × WalkSt
  | .mk i nm ty vis cs =>
    let n : RawNode := .mk i nm ty vis cs
    let ops := (exts.map (fun e => e n parent)).flatten
    let r := applyOps st [] ops
    let seeded : SNode := .mk i nm ty r.2 [] none
    let descend := match opts.maxDepth with
      | none => true
      | some d => depth < d
    if descend then
      let rc := walkList exts opts (some n) (depth + 1) r.1 cs
      if opts.afterChildren then
        let hooked := collapseSvgContainers ty seeded rc.1
        (match hooked.1 with
         | .mk i' nm' t' f' _ dl' => (SNode.mk i' nm' t' f' hooked.2 dl', rc.2))
      else
        (SNode.mk i nm ty r.2 rc.1 none, rc.2)
    else
      (seeded, r.1)

/-- Companion of `walkNode`: walk a sibling list left to right, threading
the registry state. -/
def walkList (exts : List Extractor) (opts : TraversalOptions)
    (parent : Option RawNode) (depth : Nat) (st : WalkSt) :
    List RawNode → List SNode × WalkSt
  | [] => ([], st)
  | n :: rest =>
    let r1 := walkNode exts opts parent depth st n
    let r2 := walkList exts opts parent depth r1.2 rest
    (r1.1 :: r2.1, r2.2)
end

/-- One entry of a `GetFileNodesResponse.nodes` map: the requested
subtree's document plus its per-subtree side tables.  Table values are
opaque payload strings, since the core only merges and forwards them. -/
structure NodeResp where
  document : RawNode
  components : List (String × String)
  componentSets : List (String × String)
  styles : List (String × String)

/-- A raw Figma API response: either a whole-file response (with a
top-level document node and file-level side tables) or a per-node
response map keyed by requested node id. -/
inductive APIResponse where
  | fileResp (name : String) (document : RawNode)
      (components componentSets styles : List (String × String))
  | nodesResp (name : String) (entries : List (String × NodeResp))

/-- Output of `parseAPIResponse`. -/
structure ParsedResponse where
  name : String
  rawNodes : List RawNode
  components : List (String × String)
  componentSets : List (String × String)
  extraStyles : List (String × String)

/-- Model of `parseAPIResponse` (src/extractors/design-extractor.ts:44):
merge the per-subtree side tables with `Object.assign` (later entries
overwrite earlier ones) and collect the top-level nodes, filtered for
visibility.  Visibility filtering applies only here, never inside the
walker. -/
def parseAPIResponse : APIResponse → ParsedResponse
  | .fileResp name document components componentSets styles =>
    { name := name
      rawNodes := document.children.filter isVisible
      components := alAssign [] components
      componentSets := alAssign [] componentSets
      extraStyles := styles }
  | .nodesResp name entries =>
    { name := name
      rawNodes := (entries.map (fun e => e.2.document)).filter isVisible
      components := entries.foldl (fun acc e => alAssign acc e.2.components) []
      componentSets :=
        entries.foldl (fun acc e => alAssign acc e.2.componentSets) []
      extraStyles := entries.foldl (fun acc e => alAssign acc e.2.styles) [] }

/-- The `SimplifiedDesign` returned by `simplifyRawFigmaObject`. -/
structure SimplifiedDesign where
  name : String
  nodes : List SNode
  components : List (String × String)
  componentSets : List (String × String)
  styles : Registry

/-- Model of `simplifyRawFigmaObject` (src/extractors/design-extractor.ts:17):
parse the raw response, walk the nodes with a fresh call-scoped registry,
and assemble the simplified design.  `simplifyComponents` and
`simplifyComponentSets` (transformers/component.ts, not in the provided
sources) are deterministic per-entry rewrites of the merged side tables;
they are modelled as the identity on those tables, which is sound for
every property in this file since none inspects table values.  The final
id-generator state is returned alongside, modelling that `Math.random`'s
global stream advances across calls. -/
def simplifyRawFigmaObject (resp : APIResponse) (exts : List Extractor)
    (opts : TraversalOptions) (gen : IdGen) : SimplifiedDesign × IdGen :=
  let parsed := parseAPIResponse resp
  let r := walkList exts opts none 0 ⟨[], gen⟩ parsed.rawNodes
  ({ name := parsed.name
     nodes := r.1
     components := parsed.components
     componentSets := parsed.componentSets
     styles := r.2.gv },
   r.2.gen)

/-! ## C3 and C10: the SVG-collapsing rewrite -/

theorem collapse_fires {ty : String} {res : SNode} {cs : List SNode}
    (hc : ty = "FRAME" ∨ ty = "GROUP" ∨ ty = "INSTANCE")
    (hall : cs.all (fun c => SVG_ELIGIBLE_TYPES.contains c.type) = true) :
    collapseSvgContainers ty res cs =
      ((match res with
        | .mk i n _ f c d => SNode.mk i n "IMAGE-SVG" f c d), []) := by
  unfold collapseSvgContainers
  rw [if_pos ⟨hc, hall⟩]

theorem collapse_skips {ty : String} {res : SNode} {cs : List SNode}
    (h : ¬((ty = "FRAME" ∨ ty = "GROUP" ∨ ty = "INSTANCE") ∧
          cs.all (fun c => SVG_ELIGIBLE_TYPES.contains c.type) = true)) :
    collapseSvgContainers ty res cs = (res, cs) := by
  unfold collapseSvgContainers
  rw [if_neg h]

mutual
/-- Predicate on raw subtrees: every leaf-eligible-typed node counts, and
a `FRAME`/`GROUP`/`INSTANCE` container counts when all its children count
recursively.  This is exactly the shape the SVG collapsing rewrite folds
bottom-up into a single marker. -/
def svgCollapsible : RawNode → Bool
  | .mk _ _ ty _ cs =>
    SVG_ELIGIBLE_TYPES.contains ty ||
      ((ty == "FRAME" || ty == "GROUP" || ty == "INSTANCE") &&
        svgCollapsibleList cs)

/-- List companion of `svgCollapsible`. -/
def svgCollapsibleList : List RawNode → Bool
  | [] => true
  | c :: rest => svgCollapsible c && svgCollapsibleList rest
end

theorem walkNode_hook_eq (exts : List Extractor) (parent : Option RawNode)
    (depth : Nat) (st : WalkSt) (i nm ty : String) (vis : Option Bool)
    (cs : List RawNode) :
    walkNode exts ⟨none, true⟩ parent depth st (RawNode.mk i nm ty vis cs) =
      (let r := applyOps st []
        ((exts.map (fun e => e (RawNode.mk i nm ty vis cs) parent)).flatten)
       let rc := walkList exts ⟨none, true⟩ (some (RawNode.mk i nm ty vis cs))
        (depth + 1) r.1 cs
       let hooked := collapseSvgContainers ty (SNode.mk i nm ty r.2 [] none) rc.1
       (match hooked.1 with
        | .mk i' nm' t' f' _ dl' => (SNode.mk i' nm' t' f' hooked.2 dl', rc.2))) := by
  rw [walkNode]
  rfl

mutual
/-- Walking a collapsible raw subtree with the hook installed and no
depth bound yields a node whose final type is leaf-eligible. -/
theorem walkNode_collapsible_type (exts : List Extractor)
    (parent : Option RawNode) (depth : Nat) (st : WalkSt) (n : RawNode)
    (h : svgCollapsible n = true) :
    SVG_ELIGIBLE_TYPES.contains
      (walkNode exts ⟨none, true⟩ parent depth st n).1.type = true := by
  match n with
  | .mk i nm ty vis cs =>
    rw [walkNode_hook_eq]
    simp only
    by_cases hfire : (ty = "FRAME" ∨ ty = "GROUP" ∨ ty = "INSTANCE") ∧
        ((walkList exts ⟨none, true⟩ (some (RawNode.mk i nm ty vis cs)) (depth + 1)
          (applyOps st []
            ((exts.map (fun e => e (RawNode.mk i nm ty vis cs) parent)).flatten)).1
          cs).1.all (fun c => SVG_ELIGIBLE_TYPES.contains c.type) = true)
    · rw [collapse_fires hfire.1 hfire.2]
      rfl
    · rw [collapse_skips hfire]
      simp only [SNode.type]
      rw [svgCollapsible] at h
      rcases Bool.or_eq_true_iff.mp h with helig | hcont
      · exact helig
      · exfalso
        apply hfire
        rcases Bool.and_eq_true_iff.mp hcont with ⟨hty, hlist⟩
        refine ⟨?_, ?_⟩
        · rcases Bool.or_eq_true_iff.mp hty with h1 | h1
          · rcases Bool.or_eq_true_iff.mp h1 with h2 | h2
            · exact Or.inl (by simpa using h2)
            · exact Or.inr (Or.inl (by simpa using h2))
          · exact Or.inr (Or.inr (by simpa using h1))
        · exact walkList_collapsible_types exts (some (RawNode.mk i nm ty vis cs))
            (depth + 1) _ cs hlist

/-- Walking a list of collapsible raw subtrees yields nodes whose final
types are all leaf-eligible. -/
theorem walkList_collapsible_types (exts : List Extractor)
    (parent : Option RawNode) (depth : Nat) (st : WalkSt)
    (l : List RawNode) (h : svgCollapsibleList l = true) :
    (walkList exts ⟨none, true⟩ parent depth st l).1.all
      (fun c => SVG_ELIGIBLE_TYPES.contains c.type) = true := by
  match l with
  | [] =>
    rw [walkList]
    rfl
  | n :: rest =>
    rw [svgCollapsibleList] at h
    rcases Bool.and_eq_true_iff.mp h with ⟨hn, hrest⟩
    rw [walkList]
    simp only [List.all_cons, Bool.and_eq_true]
    exact ⟨walkNode_collapsible_type exts parent depth st n hn,
      walkList_collapsible_types exts parent depth _ rest hrest⟩
end

/-! ## The asset locator -/

/-- Generic read `obj[k]` for string-keyed JS objects. -/
def alGet {α : Type} : List (String × α) → String → Option α
  | [], _ => none
  | (k', v') :: rest, k => if k' = k then some v' else alGet rest k

/-- Model of `hasImageFill` (src/lib.ts:557): the node's `fills` field is
a style-reference string whose dereferenced style value is a list
containing at least one entry of image kind.  A missing `fills` field, a
dangling reference, or a non-list style value yields `false`. -/
def hasImageFill (n : SNode) (gv : Registry) : Bool :=
  match alGet n.fields "fills" with
  | none => false
  | some fv =>
    match alGet gv fv.str with
    | some (.fills ps) => ps.any (fun f => f.type == "IMAGE")
    | _ => false

mutual
/-- Model of the `traverse` closure of `findImageAssets`
(src/lib.ts:539): pre-order depth-first collection of nodes that are
image assets (type `IMAGE-SVG`, or carrying an image fill). -/
def findImageAssetsN (gv : Registry) : SNode → List SNode
  | .mk i n t f cs d =>
    let node := SNode.mk i n t f cs d
    (if t = "IMAGE-SVG" ∨ hasImageFill node gv = true then [node] else []) ++
      findImageAssetsL gv cs

/-- List companion of `findImageAssetsN`. -/
def findImageAssetsL (gv : Registry) : List SNode → List SNode
  | [] => []
  | n :: rest => findImageAssetsN gv n ++ findImageAssetsL gv rest
end

/-- Model of `findImageAssets` (src/lib.ts:536). -/
def findImageAssets (nodes : List SNode) (gv : Registry) : List SNode :=
  findImageAssetsL gv nodes

/-- Replace a simplified node's children list (the walker does this after
the `afterChildren` hook returns the final children). -/
def SNode.withChildren : SNode → List SNode → SNode
  | .mk i n t f _ d, cs => .mk i n t f cs d

/-! ## C3: the SVG-collapsing rewrite -/

/-- C3.  The leaf-eligible set contains the `IMAGE-SVG` marker itself;
for a `FRAME`/`GROUP`/`INSTANCE` node whose processed children all have
leaf-eligible types the hook rewrites the type to `IMAGE-SVG` and returns
an empty children list; if some child's type is outside the set, or the
node's type is not one of the three container tags, the result node and
the original children list are returned unchanged; and (through the
spec-modelled walker, which applies the hook post-order) a container
whose raw subtree consists of nested all-eligible containers over
eligible leaves collapses into a single childless `IMAGE-SVG` marker at
the top. -/
theorem svg_collapse_spec :
    (SVG_ELIGIBLE_TYPES.contains "IMAGE-SVG" = true) ∧
    (∀ (ty : String) (res : SNode) (cs : List SNode),
      (ty = "FRAME" ∨ ty = "GROUP" ∨ ty = "INSTANCE") →
      (∀ c ∈ cs, SVG_ELIGIBLE_TYPES.contains c.type = true) →
      (collapseSvgContainers ty res cs).1.type = "IMAGE-SVG" ∧
      (collapseSvgContainers ty res cs).2 = []) ∧
    (∀ (ty : String) (res : SNode) (cs : List SNode),
      (∃ c ∈ cs, ¬ SVG_ELIGIBLE_TYPES.contains c.type = true) →
      (collapseSvgContainers ty res cs).1 = res ∧
      (collapseSvgContainers ty res cs).2 = cs) ∧
    (∀ (ty : String) (res : SNode) (cs : List SNode),
      ¬(ty = "FRAME" ∨ ty = "GROUP" ∨ ty = "INSTANCE") →
      (collapseSvgContainers ty res cs).1 = res ∧
      (collapseSvgContainers ty res cs).2 = cs) ∧
    (∀ (exts : List Extractor) (parent : Option RawNode) (depth : Nat)
      (st : WalkSt) (i nm ty : String) (vis : Option Bool)
      (cs : List RawNode),
      (ty = "FRAME" ∨ ty = "GROUP" ∨ ty = "INSTANCE") →
      svgCollapsibleList cs = true →
      (walkNode exts ⟨none, true⟩ parent depth st
        (RawNode.mk i nm ty vis cs)).1.type = "IMAGE-SVG" ∧
      (walkNode exts ⟨none, true⟩ parent depth st
        (RawNode.mk i nm ty vis cs)).1.children = []) := by
  refine ⟨rfl, ?_, ?_, ?_, ?_⟩
  · intro ty res cs hc hall
    rw [collapse_fires hc (List.all_eq_true.mpr hall)]
    exact ⟨by cases res; rfl, rfl⟩
  · intro ty res cs hex
    obtain ⟨c, hcmem, hcelig⟩ := hex
    have hskip : ¬((ty = "FRAME" ∨ ty = "GROUP" ∨ ty = "INSTANCE") ∧
        cs.all (fun c => SVG_ELIGIBLE_TYPES.contains c.type) = true) := by
      rintro ⟨_, hall⟩
      exact hcelig (List.all_eq_true.mp hall c hcmem)
    rw [collapse_skips hskip]
    exact ⟨rfl, rfl⟩
  · intro ty res cs hnc
    have hskip : ¬((ty = "FRAME" ∨ ty = "GROUP" ∨ ty = "INSTANCE") ∧
        cs.all (fun c => SVG_ELIGIBLE_TYPES.contains c.type) = true) :=
      fun hand => hnc hand.1
    rw [collapse_skips hskip]
    exact ⟨rfl, rfl⟩
  · intro exts parent depth st i nm ty vis cs hc hlist
    rw [walkNode_hook_eq]
    simp only
    have hall := walkList_collapsible_types exts
      (some (RawNode.mk i nm ty vis cs)) (depth + 1)
      (applyOps st []
        ((exts.map (fun e => e (RawNode.mk i nm ty vis cs) parent)).flatten)).1
      cs hlist
    rw [collapse_fires hc hall]
    exact ⟨rfl, rfl⟩

/-- Witness for `svg_collapse_spec`: a frame of one rectangle collapses;
a frame with a text child stays expanded; a text node is untouched; and
three nested all-eligible containers collapse to a single marker. -/
theorem svg_collapse_spec_witness :
    ((collapseSvgContainers "FRAME" (SNode.mk "1" "icon" "FRAME" [] [] none)
        [SNode.mk "2" "r" "RECTANGLE" [] [] none]).1.type = "IMAGE-SVG" ∧
      (collapseSvgContainers "FRAME" (SNode.mk "1" "icon" "FRAME" [] [] none)
        [SNode.mk "2" "r" "RECTANGLE" [] [] none]).2 = []) ∧
    ((collapseSvgContainers "FRAME" (SNode.mk "1" "card" "FRAME" [] [] none)
        [SNode.mk "2" "t" "TEXT" [] [] none]).1 =
        SNode.mk "1" "card" "FRAME" [] [] none ∧
      (collapseSvgContainers "FRAME" (SNode.mk "1" "card" "FRAME" [] [] none)
        [SNode.mk "2" "t" "TEXT" [] [] none]).2 =
        [SNode.mk "2" "t" "TEXT" [] [] none]) ∧
    ((collapseSvgContainers "TEXT" (SNode.mk "1" "t" "TEXT" [] [] none)
        []).1 = SNode.mk "1" "t" "TEXT" [] [] none) ∧
    ((walkNode [] ⟨none, true⟩ none 0 ⟨[], ⟨fun _ => "AAAAAA", 0⟩⟩
        (RawNode.mk "1" "f" "FRAME" none
          [RawNode.mk "2" "g" "GROUP" none
            [RawNode.mk "3" "g2" "GROUP" none
              [RawNode.mk "4" "r" "RECTANGLE" none []]]])).1.type =
        "IMAGE-SVG" ∧
      (walkNode [] ⟨none, true⟩ none 0 ⟨[], ⟨fun _ => "AAAAAA", 0⟩⟩
        (RawNode.mk "1" "f" "FRAME" none
          [RawNode.mk "2" "g" "GROUP" none
            [RawNode.mk "3" "g2" "GROUP" none
              [RawNode.mk "4" "r" "RECTANGLE" none []]]])).1.children = []) := by
  refine ⟨?_, ?_, ?_, ?_⟩
  · exact svg_collapse_spec.2.1 "FRAME" _ _ (Or.inl rfl) (by decide)
  · exact svg_collapse_spec.2.2.1 "FRAME" _ _
      ⟨SNode.mk "2" "t" "TEXT" [] [] none, List.mem_singleton.mpr rfl, by decide⟩
  · exact (svg_collapse_spec.2.2.2.1 "TEXT" _ _ (by decide)).1
  · exact svg_collapse_spec.2.2.2.2 [] none 0 _ "1" "f" "FRAME" none _
      (Or.inl rfl) (by decide)

/-! ## C10: empty containers collapse and are reported as assets -/

/-- C10.  For a `FRAME`/`GROUP`/`INSTANCE` node whose processed children
list is empty, the hook's all-eligible check is vacuously true, so the
node's type is rewritten to `IMAGE-SVG` with an empty children list, and
the asset locator reports the resulting childless marker node as an
image asset. -/
theorem empty_container_collapses (ty : String) (res : SNode) (gv : Registry)
    (h : ty = "FRAME" ∨ ty = "GROUP" ∨ ty = "INSTANCE") :
    (collapseSvgContainers ty res []).1.type = "IMAGE-SVG" ∧
    (collapseSvgContainers ty res []).2 = [] ∧
    findImageAssets [(collapseSvgContainers ty res []).1.withChildren []] gv =
      [(collapseSvgContainers ty res []).1.withChildren []] := by
  rw [collapse_fires h List.all_nil]
  refine ⟨by cases res; rfl, rfl, ?_⟩
  cases res with
  | mk i n t f cs d =>
    simp [SNode.withChildren, findImageAssets, findImageAssetsL,
      findImageAssetsN]

/-- Witness for `empty_container_collapses` at a concrete empty frame. -/
theorem empty_container_collapses_witness :
    (collapseSvgContainers "FRAME"
      (SNode.mk "9" "empty" "FRAME" [] [] none) []).1.type = "IMAGE-SVG" ∧
    (collapseSvgContainers "FRAME"
      (SNode.mk "9" "empty" "FRAME" [] [] none) []).2 = [] ∧
    findImageAssets [(collapseSvgContainers "FRAME"
      (SNode.mk "9" "empty" "FRAME" [] [] none) []).1.withChildren []] [] =
      [(collapseSvgContainers "FRAME"
        (SNode.mk "9" "empty" "FRAME" [] [] none) []).1.withChildren []] :=
  empty_container_collapses "FRAME" (SNode.mk "9" "empty" "FRAME" [] [] none)
    [] (Or.inl rfl)

/-! ## The enrichment merger

String helpers mirror the JavaScript operations used in
`enrichNodesWithImages`; they are implemented over character lists so
that concrete instances evaluate inside the kernel. -/

/-- JS `replace(/\\\\/g, "/")`: normalize backslash separators. -/
def normSeps (s : String) : String :=
  ⟨s.data.map (fun c => if c = '\\' then '/' else c)⟩

/-- Character-list prefix test. -/
def chStarts : List Char → List Char → Bool
  | _, [] => true
  | [], _ :: _ => false
  | c :: cr, p :: pr => c == p && chStarts cr pr

/-- JS `String.startsWith`. -/
def strStartsWith (s pre : String) : Bool :=
  chStarts s.data pre.data

/-- JS `String.endsWith`. -/
def strEndsWith (s suf : String) : Bool :=
  chStarts s.data.reverse suf.data.reverse

/-- JS `path.split(/[/\\\\]/).pop()`: the characters after the last path
separator (empty when the path ends with a separator). -/
def lastCompAux : List Char → List Char → List Char
  | [], acc => acc.reverse
  | c :: rest, acc =>
    if c = '/' ∨ c = '\\' then lastCompAux rest []
    else lastCompAux rest (c :: acc)

/-- The filename component of a path. -/
def lastComponent (s : String) : String :=
  ⟨lastCompAux s.data []⟩

/-- The base path with a trailing slash appended when missing
(src/lib.ts:590). -/
def ensureTrailingSlash (base : String) : String :=
  if strEndsWith base "/" then base else base ++ "/"

/-- The caller-selected path rendering policy (`useRelativePaths` in the
source: `true` = filename only, `false` = absolute, a string = strip
that base path). -/
inductive PathPolicy where
  | filenameOnly
  | absolute
  | stripBase (base : String)

/-- Model of the `pathForMarkup` computation of `enrichNodesWithImages`
(src/lib.ts:583): absolute passes the path through; strip-base removes
the normalized leading base (with trailing slash ensured) when the
normalized path starts with it and otherwise falls back to the bare
filename; filename-only keeps the bare filename.  Every rendered
relative path is prefixed with `./`. -/
def renderPathForMarkup (policy : PathPolicy) (filePath : String) : String :=
  match policy with
  | .absolute => filePath
  | .stripBase base =>
    let nf := normSeps filePath
    let nb := normSeps (ensureTrailingSlash base)
    if strStartsWith nf nb then "./" ++ (⟨nf.data.drop nb.data.length⟩ : String)
    else "./" ++ lastComponent filePath
  | .filenameOnly => "./" ++ lastComponent filePath

/-- One `DownloadResult` from the asset renderer: the stored file path
and the final pixel dimensions plus crop flag
(`finalDimensions.width/height` flattened). -/
structure DLResult where
  filePath : String
  width : Nat
  height : Nat
  wasCropped : Bool
deriving DecidableEq, Repr

/-- The presentation bundle stored in the image map for one asset
(src/lib.ts:606). -/
def mkEnriched (asset : SNode) (r : DLResult) (policy : PathPolicy) :
    EnrichedImage :=
  let pathForMarkup := renderPathForMarkup policy r.filePath
  { filePath := r.filePath
    relativePath := pathForMarkup
    width := r.width
    height := r.height
    wasCropped := r.wasCropped
    markdown := "![" ++ asset.name ++ "](" ++ pathForMarkup ++ ")"
    html := "<img src=\"" ++ pathForMarkup ++ "\" alt=\"" ++ asset.name ++
      "\" width=\"" ++ toString r.width ++ "\" height=\"" ++
      toString r.height ++ "\">" }

/-- Generic JS-Map insertion (`Map.set`): overwrite in place when the key
exists, append otherwise. -/
def alPut {α : Type} : List (String × α) → String → α → List (String × α)
  | [], k, v => [(k, v)]
  | (k', v') :: rest, k, v =>
    if k' = k then (k', v) :: rest else (k', v') :: alPut rest k v

/-- The `imageAssets.forEach((asset, index) => ...)` loop of
`enrichNodesWithImages` (src/lib.ts:579): pair each asset with the
download result at the same index; skip assets whose result is missing
or has a falsy (empty) `filePath`. -/
def buildImageMapAux (policy : PathPolicy) :
    List SNode → List DLResult → List (String × EnrichedImage) →
    List (String × EnrichedImage)
  | [], _, acc => acc
  | _ :: arest, [], acc => buildImageMapAux policy arest [] acc
  | a :: arest, r :: rrest, acc =>
    let acc' := if r.filePath ≠ "" then alPut acc a.id (mkEnriched a r policy)
      else acc
    buildImageMapAux policy arest rrest acc'

/-- The image map keyed by asset node id. -/
def buildImageMap (assets : List SNode) (results : List DLResult)
    (policy : PathPolicy) : List (String × EnrichedImage) :=
  buildImageMapAux policy assets results []

/-- Generic JS-Map read. -/
def alFind {α : Type} : List (String × α) → String → Option α
  | [], _ => none
  | (k', v') :: rest, k => if k' = k then some v' else alFind rest k

mutual
/-- Model of the inner `enrichNode` (src/lib.ts:617): rebuild the node as
a structural copy (`{...node}` spread), attach the image-map entry for
its id when present, and rebuild the children recursively.  The input
node is never written to: the source only assigns to the fresh copy. -/
def enrichNode (imageMap : List (String × EnrichedImage)) : SNode → SNode
  | .mk i n t f cs d =>
    let dl := match alFind imageMap i with
      | some img => some img
      | none => d
    .mk i n t f (enrichList imageMap cs) dl

/-- List companion of `enrichNode`. -/
def enrichList (imageMap : List (String × EnrichedImage)) :
    List SNode → List SNode
  | [] => []
  | n :: rest => enrichNode imageMap n :: enrichList imageMap rest
end

/-- Model of `enrichNodesWithImages` (src/lib.ts:570).  The source's
`localPath` parameter is declared but never read in the function body
and is therefore not modelled. -/
def enrichNodesWithImages (nodes assets : List SNode)
    (downloadResults : List DLResult) (policy : PathPolicy) : List SNode :=
  enrichList (buildImageMap assets downloadResults policy) nodes

/-! ## C8: the strip-base path rendering policy -/

/-- C8.  Under the strip-base policy, the enriched node's rendered
display path is `./` followed by the path with the normalized leading
base (trailing slash ensured) removed whenever the separator-normalized
path starts with the separator-normalized base, and otherwise `./`
followed by the bare filename, which is exactly the filename-only
policy's output — a fallback, not a failure. -/
theorem strip_base_policy_spec (node : SNode) (r : DLResult) (base : String)
    (hfp : r.filePath ≠ "") :
    ∃ img : EnrichedImage,
      (enrichNodesWithImages [node] [node] [r] (.stripBase base)).map
        SNode.downloadedImage = [some img] ∧
      img.filePath = r.filePath ∧
      (strStartsWith (normSeps r.filePath)
          (normSeps (ensureTrailingSlash base)) = true →
        img.relativePath = "./" ++
          (⟨(normSeps r.filePath).data.drop
            (normSeps (ensureTrailingSlash base)).data.length⟩ : String)) ∧
      (strStartsWith (normSeps r.filePath)
          (normSeps (ensureTrailingSlash base)) = false →
        img.relativePath = "./" ++ lastComponent r.filePath ∧
        img.relativePath = renderPathForMarkup .filenameOnly r.filePath) := by
  cases node with
  | mk i n t f cs d =>
    refine ⟨mkEnriched (SNode.mk i n t f cs d) r (.stripBase base),
      ?_, rfl, ?_, ?_⟩
    · simp [enrichNodesWithImages, buildImageMap, buildImageMapAux, hfp,
        alPut, enrichList, enrichNode, alFind, SNode.downloadedImage, SNode.id]
    · intro h
      simp [mkEnriched, renderPathForMarkup, h]
    · intro h
      constructor
      · simp [mkEnriched, renderPathForMarkup, h]
      · simp [mkEnriched, renderPathForMarkup, h]

/-- Witness for `strip_base_policy_spec`: the spec's own example — a
strip-base policy for `/var/www` applied to `/tmp/x.png` falls back to
the filename-only output `./x.png`. -/
theorem strip_base_policy_spec_witness :
    ("/tmp/x.png" : String) ≠ "" ∧
    ∃ img : EnrichedImage,
      (enrichNodesWithImages [SNode.mk "n1" "x" "RECTANGLE" [] [] none]
        [SNode.mk "n1" "x" "RECTANGLE" [] [] none]
        [⟨"/tmp/x.png", 10, 20, false⟩]
        (.stripBase "/var/www")).map SNode.downloadedImage = [some img] ∧
      img.relativePath = "./x.png" := by
  refine ⟨by decide, ?_⟩
  obtain ⟨img, hmap, hfp, hpos, hneg⟩ :=
    strip_base_policy_spec (SNode.mk "n1" "x" "RECTANGLE" [] [] none)
      ⟨"/tmp/x.png", 10, 20, false⟩ "/var/www" (by decide)
  exact ⟨img, hmap, ((hneg (by decide)).1).trans (by decide)⟩

/-! ## C9: enrichment is an immutable structural rebuild -/

mutual
/-- A simplified tree with no `downloadedImage` attached anywhere, which
is what the simplification pipeline produces. -/
def noDl : SNode → Bool
  | .mk _ _ _ _ cs d => d.isNone && noDlList cs

/-- List companion of `noDl`. -/
def noDlList : List SNode → Bool
  | [] => true
  | n :: rest => noDl n && noDlList rest
end

mutual
/-- Strip every `downloadedImage` from a tree. -/
def eraseDl : SNode → SNode
  | .mk i n t f cs _ => .mk i n t f (eraseDlList cs) none

/-- List companion of `eraseDl`. -/
def eraseDlList : List SNode → List SNode
  | [] => []
  | n :: rest => eraseDl n :: eraseDlList rest
end

mutual
/-- Stripping the attached images from an enriched tree recovers the
input tree exactly, node for node. -/
theorem eraseDl_enrichNode (m : List (String × EnrichedImage))
    (node : SNode) (h : noDl node = true) :
    eraseDl (enrichNode m node) = node := by
  match node with
  | .mk i n t f cs d =>
    rw [noDl] at h
    rcases Bool.and_eq_true_iff.mp h with ⟨hd, hcs⟩
    have hd' : d = none := by
      cases d
      · rfl
      · simp [Option.isNone] at hd
    rw [enrichNode, eraseDl, hd']
    exact congrArg (fun l => SNode.mk i n t f l none)
      (eraseDlList_enrichList m cs hcs)

/-- List companion of `eraseDl_enrichNode`. -/
theorem eraseDlList_enrichList (m : List (String × EnrichedImage))
    (l : List SNode) (h : noDlList l = true) :
    eraseDlList (enrichList m l) = l := by
  match l with
  | [] => rfl
  | n :: rest =>
    rw [noDlList] at h
    rcases Bool.and_eq_true_iff.mp h with ⟨hn, hrest⟩
    rw [enrichList, eraseDlList]
    rw [eraseDl_enrichNode m n hn, eraseDlList_enrichList m rest hrest]
end

/-- C9.  The enrichment merge is a pure structural rebuild: every output
node keeps its input node's `id`, `name`, `type` and extracted fields,
its children are exactly the recursively rebuilt input children, a node
whose id is not in the image map keeps its input `downloadedImage` (so
an unmatched node differs from its input counterpart only by the rebuilt
children), a matched node gets exactly the map's bundle, and stripping
the attached bundles from the output of a pipeline-produced (bundle-free)
tree recovers the input tree identically — the JS source only ever
assigns to fresh `{...node}` spread copies, never to the input. -/
theorem enrich_structural_copy (m : List (String × EnrichedImage)) :
    (∀ node : SNode,
      (enrichNode m node).id = node.id ∧
      (enrichNode m node).name = node.name ∧
      (enrichNode m node).type = node.type ∧
      (enrichNode m node).fields = node.fields ∧
      (enrichNode m node).children = enrichList m node.children ∧
      (alFind m node.id = none →
        (enrichNode m node).downloadedImage = node.downloadedImage) ∧
      (∀ img, alFind m node.id = some img →
        (enrichNode m node).downloadedImage = some img)) ∧
    (∀ node : SNode, noDl node = true → eraseDl (enrichNode m node) = node) := by
  constructor
  · intro node
    cases node with
    | mk i n t f cs d =>
      refine ⟨rfl, rfl, rfl, rfl, rfl, ?_, ?_⟩
      · intro hnone
        simp only [SNode.id] at hnone
        simp [enrichNode, hnone, SNode.downloadedImage]
      · intro img hsome
        simp only [SNode.id] at hsome
        simp [enrichNode, hsome, SNode.downloadedImage]
  · exact eraseDl_enrichNode m

/-- Witness for `enrich_structural_copy` at a concrete map and tree. -/
theorem enrich_structural_copy_witness :
    (noDlList [SNode.mk "c" "child" "TEXT" [] [] none] = true ∧
      eraseDl (enrichNode
        [("a", ⟨"/p/q.png", "./q.png", 4, 5, false, "m", "h"⟩)]
        (SNode.mk "a" "root" "FRAME" []
          [SNode.mk "c" "child" "TEXT" [] [] none] none)) =
        SNode.mk "a" "root" "FRAME" []
          [SNode.mk "c" "child" "TEXT" [] [] none] none) ∧
    (enrichNode [("a", ⟨"/p/q.png", "./q.png", 4, 5, false, "m", "h"⟩)]
      (SNode.mk "b" "other" "FRAME" [] [] none)).downloadedImage = none := by
  constructor
  · refine ⟨by decide, ?_⟩
    exact (enrich_structural_copy _).2 _ (by decide)
  · exact ((enrich_structural_copy _).1
      (SNode.mk "b" "other" "FRAME" [] [] none)).2.2.2.2.2.1 (by decide)

/-! ## C7: external-mode enrichment error handling -/

/-- One entry of `metadata.images` (a stored `FigmaImageResult`): the
node id and the final dimensions plus crop flag.  The optional
`cssVariables` payload is carried through by the source but never read
by the merge routine, so it is not modelled. -/
structure ImageMeta where
  nodeId : String
  width : Nat
  height : Nat
  wasCropped : Bool
deriving DecidableEq, Repr

/-- The `FigmaMetadataResult` consumed by `enrichMetadataWithImages`:
document name, simplified nodes, the style table, and the optionally
stored image results. -/
structure MetadataResult where
  metaName : String
  nodes : List SNode
  styles : Registry
  images : Option (List ImageMeta)

/-- The caller-supplied substitute paths: a positional array or a
mapping keyed by node id. -/
inductive ImagePaths where
  | arr (ps : List String)
  | keyed (m : List (String × String))

/-- The keyed branch of `enrichMetadataWithImages` (src/lib.ts:493):
walk the discovered assets in traversal order; for each, a missing (or
JS-falsy empty) entry aborts with an error naming the node id, otherwise
the download result is assembled from the mapped path and the stored
image metadata found by node id (zero dimensions when absent). -/
def assembleKeyed (m : List (String × String)) (imgs : List ImageMeta) :
    List SNode → Except String (List DLResult)
  | [] => .ok []
  | a :: rest =>
    match alFind m a.id with
    | none => .error ("No image path provided for node ID: " ++ a.id)
    | some p =>
      if p = "" then .error ("No image path provided for node ID: " ++ a.id)
      else
        let dr : DLResult := match imgs.find? (fun im => im.nodeId == a.id) with
          | some im => ⟨p, im.width, im.height, im.wasCropped⟩
          | none => ⟨p, 0, 0, false⟩
        match assembleKeyed m imgs rest with
        | .error e => .error e
        | .ok drs => .ok (dr :: drs)

/-- Model of `enrichMetadataWithImages` (src/lib.ts:459): metadata with
no stored images is returned unchanged; a positional array must have
length equal to `metadata.images.length`; a keyed mapping must cover
every discovered asset id with a non-empty path; on success the nodes
are enriched through the merge routine.  Thrown JS errors are modelled
as `Except.error` carrying the message. -/
def enrichMetadataWithImages (md : MetadataResult) (paths : ImagePaths)
    (policy : PathPolicy) : Except String MetadataResult :=
  match md.images with
  | none => .ok md
  | some imgs =>
    if imgs.isEmpty then .ok md
    else
      let imageAssets := findImageAssets md.nodes md.styles
      match paths with
      | .arr ps =>
        if ps.length ≠ imgs.length then
          .error ("Number of image paths (" ++ toString ps.length ++
            ") must match number of images (" ++ toString imgs.length ++ ")")
        else
          let downloadResults := (ps.zip imgs).map
            (fun pim => DLResult.mk pim.1 pim.2.width pim.2.height
              pim.2.wasCropped)
          .ok { md with
            nodes := enrichNodesWithImages md.nodes imageAssets
              downloadResults policy }
      | .keyed m =>
        match assembleKeyed m imgs imageAssets with
        | .error e => .error e
        | .ok drs =>
          .ok { md with
            nodes := enrichNodesWithImages md.nodes imageAssets drs policy }

/-- Whether an `Except` result is a success. -/
def exceptIsOk : Except String MetadataResult → Bool
  | .ok _ => true
  | .error _ => false

/-- C7 counterexample.  The positional-array check compares the array
length against `metadata.images.length`, not against the number of
assets the locator discovers: on a metadata value with three discovered
`IMAGE-SVG` assets but only two stored images, a positional array of
length two — which differs from the discovered asset count of three —
is accepted and an enriched tree is returned, while the claim requires
an `AssetCountMismatch` error. -/
theorem positional_mismatch_counterexample :
    (findImageAssets
      [SNode.mk "a" "a" "IMAGE-SVG" [] [] none,
       SNode.mk "b" "b" "IMAGE-SVG" [] [] none,
       SNode.mk "c" "c" "IMAGE-SVG" [] [] none] []).length = 3 ∧
    (2 : Nat) ≠ 3 ∧
    exceptIsOk (enrichMetadataWithImages
      ⟨"d",
       [SNode.mk "a" "a" "IMAGE-SVG" [] [] none,
        SNode.mk "b" "b" "IMAGE-SVG" [] [] none,
        SNode.mk "c" "c" "IMAGE-SVG" [] [] none],
       [],
       some [⟨"x", 1, 1, false⟩, ⟨"y", 1, 1, false⟩]⟩
      (.arr ["p1", "p2"]) .filenameOnly) = true := by
  refine ⟨rfl, by decide, ?_⟩
  rfl

theorem assembleKeyed_first_missing (m : List (String × String))
    (imgs : List ImageMeta) (pre post : List SNode) (a : SNode)
    (hpre : ∀ b ∈ pre, ∃ p, alFind m b.id = some p ∧ p ≠ "")
    (ha : alFind m a.id = none ∨ alFind m a.id = some "") :
    assembleKeyed m imgs (pre ++ a :: post) =
      .error ("No image path provided for node ID: " ++ a.id) := by
  induction pre with
  | nil =>
    rcases ha with h | h
    · simp [assembleKeyed, h]
    · simp [assembleKeyed, h]
  | cons b rest ih =>
    obtain ⟨p, hp, hpne⟩ := hpre b (List.mem_cons_self b rest)
    have htail := ih (fun c hc => hpre c (List.mem_cons_of_mem b hc))
    simp only [List.cons_append, assembleKeyed, hp, if_neg hpne,
      List.append_eq, htail]

/-- C7 amended.  With a non-empty stored images list: a positional path
array whose length differs from the length of `metadata.images` (which
equals the discovered-asset count whenever the metadata comes from the
standard pipeline) yields an `AssetCountMismatch`-style error; a keyed
mapping that lacks a (non-empty) entry for some discovered asset id
yields an error naming the first such node id in traversal order; in
both failure cases the call returns an error, never an enriched tree. -/
theorem enrich_metadata_external_errors (md : MetadataResult)
    (imgs : List ImageMeta) (policy : PathPolicy)
    (himg : md.images = some imgs) (hne : imgs ≠ []) :
    (∀ ps : List String, ps.length ≠ imgs.length →
      enrichMetadataWithImages md (.arr ps) policy =
        .error ("Number of image paths (" ++ toString ps.length ++
          ") must match number of images (" ++ toString imgs.length ++ ")")) ∧
    (∀ (m : List (String × String)) (pre post : List SNode) (a : SNode),
      findImageAssets md.nodes md.styles = pre ++ a :: post →
      (∀ b ∈ pre, ∃ p, alFind m b.id = some p ∧ p ≠ "") →
      (alFind m a.id = none ∨ alFind m a.id = some "") →
      enrichMetadataWithImages md (.keyed m) policy =
        .error ("No image path provided for node ID: " ++ a.id)) := by
  have hempty : imgs.isEmpty = false := by
    cases imgs
    · exact absurd rfl hne
    · rfl
  constructor
  · intro ps hlen
    simp only [enrichMetadataWithImages, himg, hempty, Bool.false_eq_true,
      if_false, if_pos hlen]
  · intro m pre post a hassets hpre ha
    simp only [enrichMetadataWithImages, himg, hempty, Bool.false_eq_true,
      if_false, hassets, assembleKeyed_first_missing m imgs pre post a hpre ha]

/-- Witness for `enrich_metadata_external_errors`: a length-1 positional
array against two stored images errors, and a keyed map missing the
second of two discovered assets errors naming that id. -/
theorem enrich_metadata_external_errors_witness :
    (enrichMetadataWithImages
      ⟨"d",
       [SNode.mk "a" "a" "IMAGE-SVG" [] [] none,
        SNode.mk "b" "b" "IMAGE-SVG" [] [] none],
       [],
       some [⟨"x", 1, 1, false⟩, ⟨"y", 1, 1, false⟩]⟩
      (.arr ["p1"]) .filenameOnly =
      .error ("Number of image paths (" ++ toString (1 : Nat) ++
        ") must match number of images (" ++ toString (2 : Nat) ++ ")")) ∧
    (enrichMetadataWithImages
      ⟨"d",
       [SNode.mk "a" "a" "IMAGE-SVG" [] [] none,
        SNode.mk "b" "b" "IMAGE-SVG" [] [] none],
       [],
       some [⟨"x", 1, 1, false⟩, ⟨"y", 1, 1, false⟩]⟩
      (.keyed [("a", "/tmp/a.png")]) .filenameOnly =
      .error ("No image path provided for node ID: " ++ "b")) := by
  constructor
  · exact (enrich_metadata_external_errors
      ⟨"d",
       [SNode.mk "a" "a" "IMAGE-SVG" [] [] none,
        SNode.mk "b" "b" "IMAGE-SVG" [] [] none],
       [],
       some [⟨"x", 1, 1, false⟩, ⟨"y", 1, 1, false⟩]⟩
      [⟨"x", 1, 1, false⟩, ⟨"y", 1, 1, false⟩] .filenameOnly rfl
      (by decide)).1 ["p1"] (by decide)
  · exact (enrich_metadata_external_errors
      ⟨"d",
       [SNode.mk "a" "a" "IMAGE-SVG" [] [] none,
        SNode.mk "b" "b" "IMAGE-SVG" [] [] none],
       [],
       some [⟨"x", 1, 1, false⟩, ⟨"y", 1, 1, false⟩]⟩
      [⟨"x", 1, 1, false⟩, ⟨"y", 1, 1, false⟩] .filenameOnly rfl
      (by decide)).2
      [("a", "/tmp/a.png")]
      [SNode.mk "a" "a" "IMAGE-SVG" [] [] none]
      []
      (SNode.mk "b" "b" "IMAGE-SVG" [] [] none)
      rfl
      (fun b hb => ⟨"/tmp/a.png", by
        rcases List.mem_singleton.mp hb with rfl
        exact ⟨rfl, by decide⟩⟩)
      (Or.inl rfl)

/-! ## The bounded-concurrency executor

`runWithConcurrency` (src/utils/common.ts:208) is modelled as an
event-interleaving state machine.  Each task is identified by its index
and has a fixed settled outcome (`Except.ok` or `Except.error`); the
free choice of the scheduler is the order in which launched tasks
complete, given as a list of task indices (the schedule).  The `next`
closure's launch loop, the success continuation and the failure
continuation are translated directly; promise settlement ("resolve or
reject wins only once") is modelled by `settled` only ever being
assigned when it is `none`. -/

/-- The `while (launched < tasks.length && launched - completed < limit)`
launch loop of `next`, with explicit fuel (the loop body runs at most
`tasks.length` times since `launched` is strictly increasing and bounded
by it).  Returns the new `launched` counter. -/
def launchLoop (n limit ok : Nat) : Nat → Nat → Nat
  | 0, launched => launched
  | fuel + 1, launched =>
    if launched < n ∧ launched - ok < limit then
      launchLoop n limit ok fuel (launched + 1)
    else launched

/-- The executor's observable state: how many tasks have been launched,
which indices have settled (`done` is bookkeeping for "this promise
settled already"), the source's `completed` counter of successes
(`okCount`), the results array, the `failed` flag, and the outer
promise's settlement. -/
structure ExecState (E T : Type) where
  launched : Nat
  done : List Nat
  okCount : Nat
  results : List (Option T)
  failed : Bool
  settled : Option (Except E (List (Option T)))

/-- The body of the `next` closure: bail out when failed, resolve with
the results array when every task has completed, otherwise launch
further tasks up to the concurrency limit. -/
def doNext {E T : Type} (tasks : List (Except E T)) (limit : Nat)
    (s : ExecState E T) : ExecState E T :=
  if s.failed then s
  else if s.okCount = tasks.length then
    { s with settled := match s.settled with
        | none => some (.ok s.results)
        | some x => some x }
  else
    { s with launched :=
        launchLoop tasks.length limit s.okCount tasks.length s.launched }

/-- The state after the synchronous part of `runWithConcurrency`: the
first `next()` call (which also covers the explicit empty-input
early-resolve, since `next` resolves immediately when zero of zero tasks
are complete). -/
def execInit {E T : Type} (tasks : List (Except E T)) (limit : Nat) :
    ExecState E T :=
  doNext tasks limit ⟨0, [], 0, List.replicate tasks.length none, false, none⟩

/-- One scheduler event: task `i` completes.  Only a launched,
not-yet-settled index has any effect.  A success writes its slot,
increments the success counter and runs `next`; a failure sets the
`failed` flag and rejects the outer promise (the first rejection wins). -/
def execStep {E T : Type} (tasks : List (Except E T)) (limit : Nat)
    (s : ExecState E T) (i : Nat) : ExecState E T :=
  if i < s.launched ∧ i ∉ s.done then
    match tasks[i]? with
    | some (.ok v) =>
      doNext tasks limit
        { s with results := s.results.set i (some v),
                 okCount := s.okCount + 1,
                 done := i :: s.done }
    | some (.error e) =>
      { s with done := i :: s.done, failed := true,
               settled := match s.settled with
                 | none => some (.error e)
                 | some x => some x }
    | none => s
  else s

/-- Run the executor under a given completion schedule. -/
def execRun {E T : Type} (tasks : List (Except E T)) (limit : Nat)
    (sched : List Nat) : ExecState E T :=
  sched.foldl (execStep tasks limit) (execInit tasks limit)

/-! ### Launch-loop lemmas -/

theorem launchLoop_ge (n limit ok : Nat) :
    ∀ fuel launched, launched ≤ launchLoop n limit ok fuel launched := by
  intro fuel
  induction fuel with
  | zero => intro launched; simp [launchLoop]
  | succ f ih =>
    intro launched
    rw [launchLoop]
    split
    · exact le_trans (Nat.le_succ launched) (ih (launched + 1))
    · exact le_refl launched

theorem launchLoop_le_n (n limit ok : Nat) :
    ∀ fuel launched, launched ≤ n → launchLoop n limit ok fuel launched ≤ n := by
  intro fuel
  induction fuel with
  | zero => intro launched h; simpa [launchLoop] using h
  | succ f ih =>
    intro launched h
    rw [launchLoop]
    split
    · rename_i hguard
      exact ih (launched + 1) hguard.1
    · exact h

theorem launchLoop_le_bound (n limit ok : Nat) :
    ∀ fuel launched, launched ≤ ok + limit →
      launchLoop n limit ok fuel launched ≤ ok + limit := by
  intro fuel
  induction fuel with
  | zero => intro launched h; simpa [launchLoop] using h
  | succ f ih =>
    intro launched h
    rw [launchLoop]
    split
    · rename_i hguard
      exact ih (launched + 1) (by omega)
    · exact h

theorem launchLoop_completes (n limit ok : Nat) (hcap : n ≤ ok + limit) :
    ∀ fuel launched, n - launched ≤ fuel → launched ≤ n → ok ≤ launched →
      launchLoop n limit ok fuel launched = n := by
  intro fuel
  induction fuel with
  | zero =>
    intro launched hfuel hle _
    have : launched = n := by omega
    simpa [launchLoop] using this
  | succ f ih =>
    intro launched hfuel hle hol
    rw [launchLoop]
    by_cases hlt : launched < n
    · rw [if_pos ⟨hlt, by omega⟩]
      exact ih (launched + 1) (by omega) (by omega) (by omega)
    · rw [if_neg (fun hand => hlt hand.1)]
      omega

/-! ### The executor invariant -/

/-- Facts true of every reachable executor state. -/
structure ExecInv {E T : Type} (tasks : List (Except E T)) (limit : Nat)
    (s : ExecState E T) : Prop where
  done_nodup : s.done.Nodup
  done_lt : ∀ i ∈ s.done, i < s.launched
  launched_le : s.launched ≤ tasks.length
  ok_le : s.okCount ≤ s.done.length
  bound : s.launched ≤ s.okCount + limit
  res_len : s.results.length = tasks.length
  res_ok : ∀ i v, i ∈ s.done → tasks[i]? = some (.ok v) →
    s.results[i]? = some (some v)
  resolved : s.failed = false → s.okCount = tasks.length →
    s.settled = some (.ok s.results)
  pending : s.failed = false → s.okCount < tasks.length → s.settled = none
  rejected : s.failed = true → ∃ e, s.settled = some (.error e)

theorem ExecInv.done_le {E T : Type} {tasks : List (Except E T)}
    {limit : Nat} {s : ExecState E T} (h : ExecInv tasks limit s) :
    s.done.length ≤ tasks.length := by
  calc s.done.length = s.done.toFinset.card :=
        (List.toFinset_card_of_nodup h.done_nodup).symm
    _ ≤ (Finset.range tasks.length).card := by
        apply Finset.card_le_card
        intro x hx
        rw [Finset.mem_range]
        exact lt_of_lt_of_le (h.done_lt x (List.mem_toFinset.mp hx))
          h.launched_le
    _ = tasks.length := Finset.card_range _

theorem ExecInv.ok_lt_of_valid {E T : Type} {tasks : List (Except E T)}
    {limit : Nat} {s : ExecState E T} (h : ExecInv tasks limit s) {i : Nat}
    (hil : i < s.launched) (hid : i ∉ s.done) :
    s.okCount < tasks.length := by
  have hsub : insert i s.done.toFinset ⊆ Finset.range tasks.length := by
    intro x hx
    rw [Finset.mem_range]
    rcases Finset.mem_insert.mp hx with rfl | hx'
    · exact lt_of_lt_of_le hil h.launched_le
    · exact lt_of_lt_of_le (h.done_lt x (List.mem_toFinset.mp hx'))
        h.launched_le
  have hcard : s.done.toFinset.card + 1 ≤ tasks.length := by
    have h1 := Finset.card_le_card hsub
    rw [Finset.card_insert_of_not_mem (fun hm => hid (List.mem_toFinset.mp hm)),
      Finset.card_range] at h1
    exact h1
  have h2 : s.done.length = s.done.toFinset.card :=
    (List.toFinset_card_of_nodup h.done_nodup).symm
  have h3 := h.ok_le
  omega

theorem inv_init {E T : Type} (tasks : List (Except E T)) (limit : Nat) :
    ExecInv tasks limit (execInit tasks limit) := by
  unfold execInit doNext
  simp only
  by_cases hz : 0 = tasks.length
  · rw [if_neg (by simp), if_pos hz]
    exact {
      done_nodup := List.nodup_nil
      done_lt := by intro i h; cases h
      launched_le := Nat.zero_le _
      ok_le := le_refl 0
      bound := Nat.zero_le _
      res_len := List.length_replicate _ _
      res_ok := by intro i v h; cases h
      resolved := by intro _ _; rfl
      pending := by intro _ hlt; omega
      rejected := by intro h; cases h }
  · rw [if_neg (by simp), if_neg hz]
    exact {
      done_nodup := List.nodup_nil
      done_lt := by intro i h; cases h
      launched_le := launchLoop_le_n _ _ _ _ _ (Nat.zero_le _)
      ok_le := le_refl 0
      bound := launchLoop_le_bound _ _ _ _ _ (Nat.zero_le _)
      res_len := List.length_replicate _ _
      res_ok := by intro i v h; cases h
      resolved := by intro _ h0; exact absurd h0 hz
      pending := by intro _ _; rfl
      rejected := by intro h; cases h }

theorem res_ok_after_set {E T : Type} {tasks : List (Except E T)}
    {limit : Nat} {s : ExecState E T} (h : ExecInv tasks limit s)
    {i : Nat} {v : T} (hil : i < s.launched) (hid : i ∉ s.done)
    (htask : tasks[i]? = some (.ok v)) :
    ∀ j w, j ∈ i :: s.done → tasks[j]? = some (.ok w) →
      (s.results.set i (some v))[j]? = some (some w) := by
  intro j w hj hjw
  rcases List.mem_cons.mp hj with rfl | hj'
  · rw [htask] at hjw
    injection hjw with hw
    injection hw with hw2
    subst hw2
    have hlen : j < s.results.length := by
      rw [h.res_len]
      exact lt_of_lt_of_le hil h.launched_le
    rw [List.getElem?_set_self hlen]
  · have hne : i ≠ j := fun he => hid (he ▸ hj')
    rw [List.getElem?_set_ne hne]
    exact h.res_ok j w hj' hjw

theorem done_lt_cons {E T : Type} {tasks : List (Except E T)}
    {limit : Nat} {s : ExecState E T} (h : ExecInv tasks limit s)
    {i : Nat} (hil : i < s.launched) {m : Nat} (hm : s.launched ≤ m) :
    ∀ j ∈ i :: s.done, j < m := by
  intro j hj
  rcases List.mem_cons.mp hj with rfl | hj'
  · exact lt_of_lt_of_le hil hm
  · exact lt_of_lt_of_le (h.done_lt j hj') hm

theorem inv_step {E T : Type} (tasks : List (Except E T)) (limit : Nat)
    (s : ExecState E T) (i : Nat) (h : ExecInv tasks limit s) :
    ExecInv tasks limit (execStep tasks limit s i) := by
  unfold execStep
  by_cases hvalid : i < s.launched ∧ i ∉ s.done
  · rw [if_pos hvalid]
    obtain ⟨hil, hid⟩ := hvalid
    cases htask : tasks[i]? with
    | none => exact h
    | some t =>
      cases t with
      | error e =>
        refine {
          done_nodup := List.nodup_cons.mpr ⟨hid, h.done_nodup⟩
          done_lt := done_lt_cons h hil (le_refl _)
          launched_le := h.launched_le
          ok_le := le_trans h.ok_le (by simp)
          bound := h.bound
          res_len := h.res_len
          res_ok := ?_
          resolved := by intro hf; cases hf
          pending := by intro hf; cases hf
          rejected := ?_ }
        · intro j v hj hjv
          rcases List.mem_cons.mp hj with rfl | hj'
          · rw [htask] at hjv; cases hjv
          · exact h.res_ok j v hj' hjv
        · intro _
          cases hf : s.failed with
          | true =>
            obtain ⟨e0, he0⟩ := h.rejected hf
            exact ⟨e0, by simp [he0]⟩
          | false =>
            have hok := h.ok_lt_of_valid hil hid
            have := h.pending hf hok
            exact ⟨e, by simp [this]⟩
      | ok v =>
        have hok := h.ok_lt_of_valid hil hid
        unfold doNext
        simp only
        cases hf : s.failed with
        | true =>
          rw [if_pos rfl]
          refine {
            done_nodup := List.nodup_cons.mpr ⟨hid, h.done_nodup⟩
            done_lt := done_lt_cons h hil (le_refl _)
            launched_le := h.launched_le
            ok_le := ?_
            bound := by
              show s.launched ≤ s.okCount + 1 + limit
              have := h.bound
              omega
            res_len := by rw [List.length_set]; exact h.res_len
            res_ok := res_ok_after_set h hil hid htask
            resolved := by intro hc; cases hc
            pending := by intro hc; cases hc
            rejected := fun _ => h.rejected hf }
          show s.okCount + 1 ≤ (i :: s.done).length
          rw [List.length_cons]
          exact Nat.succ_le_succ h.ok_le
        | false =>
          rw [if_neg (by simp)]
          by_cases hfull : s.okCount + 1 = tasks.length
          · rw [if_pos hfull]
            have hpend := h.pending hf hok
            refine {
              done_nodup := List.nodup_cons.mpr ⟨hid, h.done_nodup⟩
              done_lt := done_lt_cons h hil (le_refl _)
              launched_le := h.launched_le
              ok_le := ?_
              bound := by
                show s.launched ≤ s.okCount + 1 + limit
                have := h.bound
                omega
              res_len := by rw [List.length_set]; exact h.res_len
              res_ok := res_ok_after_set h hil hid htask
              resolved := by intro _ _; simp [hpend]
              pending := by
                intro _ hlt
                have hlt' : s.okCount + 1 < tasks.length := hlt
                omega
              rejected := by intro hc; cases hc }
            show s.okCount + 1 ≤ (i :: s.done).length
            rw [List.length_cons]
            exact Nat.succ_le_succ h.ok_le
          · rw [if_neg hfull]
            have hpend := h.pending hf hok
            refine {
              done_nodup := List.nodup_cons.mpr ⟨hid, h.done_nodup⟩
              done_lt := done_lt_cons h hil (launchLoop_ge _ _ _ _ _)
              launched_le := launchLoop_le_n _ _ _ _ _ h.launched_le
              ok_le := ?_
              bound := launchLoop_le_bound _ _ _ _ _ (by
                show s.launched ≤ s.okCount + 1 + limit
                have := h.bound
                omega)
              res_len := by rw [List.length_set]; exact h.res_len
              res_ok := res_ok_after_set h hil hid htask
              resolved := by intro _ hc; exact absurd hc hfull
              pending := by intro _ _; exact hpend
              rejected := by intro hc; cases hc }
            show s.okCount + 1 ≤ (i :: s.done).length
            rw [List.length_cons]
            exact Nat.succ_le_succ h.ok_le
  · rw [if_neg hvalid]
    exact h

theorem inv_fold {E T : Type} (tasks : List (Except E T)) (limit : Nat) :
    ∀ (sched : List Nat) (s : ExecState E T), ExecInv tasks limit s →
      ExecInv tasks limit (sched.foldl (execStep tasks limit) s) := by
  intro sched
  induction sched with
  | nil => intro s h; exact h
  | cons i rest ih =>
    intro s h
    exact ih _ (inv_step tasks limit s i h)

theorem inv_run {E T : Type} (tasks : List (Except E T)) (limit : Nat)
    (sched : List Nat) : ExecInv tasks limit (execRun tasks limit sched) :=
  inv_fold tasks limit sched _ (inv_init tasks limit)

/-! ### Executor: supporting lemmas about the failed flag -/

theorem doNext_failed {E T : Type} (tasks : List (Except E T)) (limit : Nat)
    (s : ExecState E T) : (doNext tasks limit s).failed = s.failed := by
  unfold doNext
  split
  · rfl
  · split <;> rfl

theorem execInit_failed {E T : Type} (tasks : List (Except E T))
    (limit : Nat) : (execInit tasks limit).failed = false := by
  unfold execInit
  rw [doNext_failed]

theorem execStep_failed_of_ok {E T : Type} (tasks : List (Except E T))
    (limit : Nat) (s : ExecState E T) (i : Nat)
    (hok : ∀ e, tasks[i]? ≠ some (.error e)) :
    (execStep tasks limit s i).failed = s.failed := by
  unfold execStep
  split
  · cases htask : tasks[i]? with
    | none => rfl
    | some t =>
      cases t with
      | ok v => rw [doNext_failed]
      | error e => exact absurd htask (hok e)
  · rfl

theorem fold_failed_of_ok {E T : Type} (tasks : List (Except E T))
    (limit : Nat) :
    ∀ (sched : List Nat) (s : ExecState E T),
      (∀ i ∈ sched, ∀ e, tasks[i]? ≠ some (.error e)) →
      (sched.foldl (execStep tasks limit) s).failed = s.failed := by
  intro sched
  induction sched with
  | nil => intro s _; rfl
  | cons i rest ih =>
    intro s hs
    simp only [List.foldl_cons]
    rw [ih _ (fun j hj => hs j (List.mem_cons_of_mem i hj)),
      execStep_failed_of_ok tasks limit s i (hs i (List.mem_cons_self i rest))]

/-- Every index below the task count is a completed index when the
success counter has reached the task count. -/
theorem done_complete {E T : Type} {tasks : List (Except E T)} {limit : Nat}
    {s : ExecState E T} (h : ExecInv tasks limit s)
    (hcomp : s.okCount = tasks.length) :
    ∀ i, i < tasks.length → i ∈ s.done := by
  intro i hi
  have hlen : s.done.length = tasks.length :=
    le_antisymm h.done_le (hcomp ▸ h.ok_le)
  have hsub : s.done.toFinset ⊆ Finset.range tasks.length := by
    intro x hx
    rw [Finset.mem_range]
    exact lt_of_lt_of_le (h.done_lt x (List.mem_toFinset.mp hx)) h.launched_le
  have hcard : (Finset.range tasks.length).card ≤ s.done.toFinset.card := by
    rw [Finset.card_range, List.toFinset_card_of_nodup h.done_nodup]
    omega
  have heq := Finset.eq_of_subset_of_card_le hsub hcard
  rw [← List.mem_toFinset, heq, Finset.mem_range]
  exact hi

/-! ## C4: ordered results when every task succeeds -/

/-- C4.  When every task succeeds, any completion order that completes
all tasks resolves the call with a result list of the same length whose
entry at index `i` is task `i`'s value; and on an empty task list the
executor resolves to the empty list already in its initial (synchronous)
state, before any completion event. -/
theorem executor_ordered_results {E T : Type} (tasks : List (Except E T))
    (limit : Nat) (sched : List Nat)
    (hall : ∀ t ∈ tasks, ∃ v, t = .ok v)
    (hcomp : (execRun tasks limit sched).okCount = tasks.length) :
    (execRun tasks limit sched).settled =
      some (.ok (tasks.map Except.toOption)) ∧
    (tasks = [] → (execInit tasks limit).settled = some (.ok [])) := by
  have hallidx : ∀ (i : Nat) (e : E), tasks[i]? ≠ some (.error e) := by
    intro i e hcon
    have hmem : Except.error e ∈ tasks := by
      have := List.getElem?_eq_some_iff.mp hcon
      obtain ⟨hlt, hget⟩ := this
      exact hget ▸ List.getElem_mem hlt
    obtain ⟨v, hv⟩ := hall _ hmem
    cases hv
  have hinv := inv_run tasks limit sched
  have hfail : (execRun tasks limit sched).failed = false := by
    unfold execRun
    rw [fold_failed_of_ok tasks limit sched _ (fun i _ => hallidx i),
      execInit_failed]
  constructor
  · rw [hinv.resolved hfail hcomp]
    congr 1
    congr 1
    apply List.ext_getElem?
    intro i
    by_cases hi : i < tasks.length
    · have ht : tasks[i]? = some tasks[i] := List.getElem?_eq_getElem hi
      cases htt : tasks[i] with
      | error e => exact absurd (htt ▸ ht) (hallidx i e)
      | ok v =>
        have hres := hinv.res_ok i v (done_complete hinv hcomp i hi)
          (htt ▸ ht)
        rw [hres, List.getElem?_map, ht, htt]
        rfl
    · have h1 : (execRun tasks limit sched).results[i]? = none := by
        rw [List.getElem?_eq_none]
        rw [hinv.res_len]
        omega
      have h2 : (tasks.map Except.toOption)[i]? = none := by
        rw [List.getElem?_eq_none]
        rw [List.length_map]
        omega
      rw [h1, h2]
  · intro hempty
    subst hempty
    rfl

/-- Witness for `executor_ordered_results`: three tasks, limit two, with
the out-of-order completion schedule 1, 0, 2. -/
theorem executor_ordered_results_witness :
    (execRun ([.ok 10, .ok 20, .ok 30] : List (Except String Nat)) 2
      [1, 0, 2]).settled = some (.ok [some 10, some 20, some 30]) := by
  have h := executor_ordered_results
    ([.ok 10, .ok 20, .ok 30] : List (Except String Nat)) 2 [1, 0, 2]
    (by
      intro t ht
      simp only [List.mem_cons, List.not_mem_nil, or_false] at ht
      rcases ht with rfl | rfl | rfl
      · exact ⟨10, rfl⟩
      · exact ⟨20, rfl⟩
      · exact ⟨30, rfl⟩)
    rfl
  exact h.1.trans rfl

/-! ## C5: fail-fast on the first failing task -/

theorem execStep_after_failed {E T : Type} (tasks : List (Except E T))
    (limit : Nat) (s : ExecState E T) (i : Nat) (hf : s.failed = true)
    (hs : ∃ e0, s.settled = some (.error e0)) :
    (execStep tasks limit s i).failed = true ∧
    (execStep tasks limit s i).settled = s.settled ∧
    (execStep tasks limit s i).launched = s.launched := by
  unfold execStep
  split
  · cases htask : tasks[i]? with
    | none => exact ⟨hf, rfl, rfl⟩
    | some t =>
      cases t with
      | ok v =>
        unfold doNext
        simp [hf]
      | error e =>
        obtain ⟨e0, he0⟩ := hs
        refine ⟨rfl, ?_, rfl⟩
        simp [he0]
  · exact ⟨hf, rfl, rfl⟩

theorem fold_after_failed {E T : Type} (tasks : List (Except E T))
    (limit : Nat) :
    ∀ (post : List Nat) (s : ExecState E T), s.failed = true →
      (∃ e0, s.settled = some (.error e0)) →
      (post.foldl (execStep tasks limit) s).failed = true ∧
      (post.foldl (execStep tasks limit) s).settled = s.settled ∧
      (post.foldl (execStep tasks limit) s).launched = s.launched := by
  intro post
  induction post with
  | nil => intro s hf hs; exact ⟨hf, rfl, rfl⟩
  | cons i rest ih =>
    intro s hf hs
    simp only [List.foldl_cons]
    obtain ⟨h1, h2, h3⟩ := execStep_after_failed tasks limit s i hf hs
    obtain ⟨g1, g2, g3⟩ := ih (execStep tasks limit s i) h1 (h2 ▸ hs)
    exact ⟨g1, g2.trans h2, g3.trans h3⟩

/-- C5.  When the schedule's first failing completion is task `j` (all
earlier events complete successful tasks, and `j` is launched and not
yet settled), the call rejects with exactly task `j`'s error, no result
list is produced, and no further task is launched after the failure is
observed: the launch counter never moves past its value at the failure
event, regardless of what completes afterwards. -/
theorem executor_fail_fast {E T : Type} (tasks : List (Except E T))
    (limit : Nat) (pre post : List Nat) (j : Nat) (e : E)
    (hj : tasks[j]? = some (.error e))
    (hpre : ∀ i ∈ pre, ∀ e', tasks[i]? ≠ some (.error e'))
    (hjl : j < (execRun tasks limit pre).launched)
    (hjd : j ∉ (execRun tasks limit pre).done) :
    (execRun tasks limit (pre ++ j :: post)).settled = some (.error e) ∧
    (execRun tasks limit (pre ++ j :: post)).failed = true ∧
    (execRun tasks limit (pre ++ j :: post)).launched =
      (execRun tasks limit (pre ++ [j])).launched := by
  have hinvp := inv_run tasks limit pre
  have hfp : (execRun tasks limit pre).failed = false := by
    unfold execRun
    rw [fold_failed_of_ok tasks limit pre _ hpre, execInit_failed]
  have hokp := hinvp.ok_lt_of_valid hjl hjd
  have hpend := hinvp.pending hfp hokp
  have hstep : execStep tasks limit (execRun tasks limit pre) j =
      { execRun tasks limit pre with
          done := j :: (execRun tasks limit pre).done,
          failed := true,
          settled := some (.error e) } := by
    unfold execStep
    rw [if_pos ⟨hjl, hjd⟩]
    simp only [hj, hpend]
  have hsplit : execRun tasks limit (pre ++ j :: post) =
      post.foldl (execStep tasks limit)
        (execStep tasks limit (execRun tasks limit pre) j) := by
    unfold execRun
    rw [List.foldl_append]
    rfl
  have hsingle : execRun tasks limit (pre ++ [j]) =
      execStep tasks limit (execRun tasks limit pre) j := by
    unfold execRun
    rw [List.foldl_append]
    rfl
  obtain ⟨g1, g2, g3⟩ := fold_after_failed tasks limit post
    (execStep tasks limit (execRun tasks limit pre) j)
    (by rw [hstep]) (⟨e, by rw [hstep]⟩)
  refine ⟨?_, ?_, ?_⟩
  · rw [hsplit, g2, hstep]
  · rw [hsplit, g1]
  · rw [hsplit, g3, hsingle]

/-- Witness for `executor_fail_fast`: task 1 of three fails after task 0
completes; the call rejects with that error and the launch counter stays
where it was when the failure was observed, even though task 2 completes
afterwards. -/
theorem executor_fail_fast_witness :
    (execRun ([.ok 1, .error "boom", .ok 2] : List (Except String Nat)) 2
      [0, 1, 2]).settled = some (.error "boom") ∧
    (execRun ([.ok 1, .error "boom", .ok 2] : List (Except String Nat)) 2
      [0, 1, 2]).failed = true ∧
    (execRun ([.ok 1, .error "boom", .ok 2] : List (Except String Nat)) 2
      [0, 1, 2]).launched = 3 := by
  have h := executor_fail_fast
    ([.ok 1, .error "boom", .ok 2] : List (Except String Nat)) 2
    [0] [2] 1 "boom" rfl
    (by
      intro i hi e' hcon
      simp only [List.mem_singleton] at hi
      subst hi
      simp at hcon)
    (by decide)
    (by decide)
  exact ⟨h.1, h.2.1, h.2.2.trans rfl⟩

/-! ## C6: the concurrency bound -/

/-- C6.  In every reachable state of an execution (any schedule prefix
is itself a schedule, so quantifying over schedules covers every
instant), the number of launched-but-not-successfully-completed tasks —
the source's `launched - completed`, which bounds the number of tasks
actually in flight — is at most `limit`; and when `limit` is at least
the number of tasks, the initial synchronous `next()` call already
launches every task, before any completion event. -/
theorem executor_bounded {E T : Type} (tasks : List (Except E T))
    (limit : Nat) (hlim : 0 < limit) (sched : List Nat) :
    (execRun tasks limit sched).launched -
      (execRun tasks limit sched).okCount ≤ limit ∧
    (tasks.length ≤ limit → (execInit tasks limit).launched = tasks.length) := by
  constructor
  · have h := (inv_run tasks limit sched).bound
    omega
  · intro hcap
    unfold execInit doNext
    rw [if_neg (by simp)]
    by_cases hz : 0 = tasks.length
    · rw [if_pos hz]
      exact hz
    · rw [if_neg hz]
      show launchLoop tasks.length limit 0 tasks.length 0 = tasks.length
      exact launchLoop_completes tasks.length limit 0 (by omega)
        tasks.length 0 (by omega) (Nat.zero_le _) (Nat.zero_le _)

/-- Witness for `executor_bounded`: four tasks with limit five. -/
theorem executor_bounded_witness :
    (0 : Nat) < 5 ∧
    (execRun ([.ok 1, .ok 2, .ok 3, .ok 4] : List (Except String Nat)) 5
      [2, 0]).launched -
      (execRun ([.ok 1, .ok 2, .ok 3, .ok 4] : List (Except String Nat)) 5
        [2, 0]).okCount ≤ 5 ∧
    (execInit ([.ok 1, .ok 2, .ok 3, .ok 4] : List (Except String Nat))
      5).launched = 4 := by
  have h := executor_bounded
    ([.ok 1, .ok 2, .ok 3, .ok 4] : List (Except String Nat)) 5
    (by decide) [2, 0]
  exact ⟨by decide, h.1, h.2 (by decide)⟩

/-! ## C1: determinism of the simplification

`generateVarId` draws from `Math.random`, whose global stream advances
across calls.  Two calls on the same input therefore mint different
style ids: the first call consumes suffixes starting at the stream
position left by earlier calls, the second continues from where the
first stopped.  The counterexample below runs the same raw response
twice, the second call starting from the id-generator state returned by
the first, and the two outputs have different `globalVars.styles` keys —
refuting byte-identical output.  What does hold is proved afterwards:
the two outputs are identical up to the randomly minted ids, i.e. after
dereferencing every style reference to its stored value. -/

/-- An extractor that registers one anonymous fill style on every node,
mirroring the `findOrCreateVar` path of the built-in visuals extractor. -/
def fillRegisteringExtractor : Extractor :=
  fun _ _ => [.style "fills" (.anon "fill") (.fills [⟨"SOLID", "#000"⟩])]

/-- A one-rectangle whole-file response. -/
def oneRectResponse : APIResponse :=
  .fileResp "doc" (RawNode.mk "0" "doc" "DOCUMENT" none
    [RawNode.mk "1" "rect" "RECTANGLE" none []]) [] [] []

/-- C1 counterexample.  Running `simplifyRawFigmaObject` twice on the
same raw response with the same non-empty extractor selection (each call
with its fresh call-scoped registry, the second call continuing from the
random stream position the first call left behind) yields different
style ids as keys of `globalVars.styles`, so the outputs are not
identical. -/
theorem simplify_rerun_ids_differ :
    let sfx : Nat → String := fun k => if k = 0 then "AAAAAA" else "BBBBBB"
    let run1 := simplifyRawFigmaObject oneRectResponse
      [fillRegisteringExtractor] ⟨none, true⟩ ⟨sfx, 0⟩
    let run2 := simplifyRawFigmaObject oneRectResponse
      [fillRegisteringExtractor] ⟨none, true⟩ run1.2
    run1.1.styles.map Prod.fst = ["fill_AAAAAA"] ∧
    run2.1.styles.map Prod.fst = ["fill_BBBBBB"] ∧
    run1.1.styles ≠ run2.1.styles := by
  refine ⟨rfl, rfl, ?_⟩
  decide

/-! ### Minted ids -/

/-- The id `generateVarId` mints for prefix `pfx` at stream position
`j`. -/
def mint (sfx : Nat → String) (pfx : String) (j : Nat) : String :=
  pfx ++ "_" ++ sfx j

/-- A well-behaved random suffix stream: pairwise distinct suffixes
containing no underscore (the source draws six characters from an
alphanumeric alphabet, so both hold whenever no collision occurs). -/
structure Admissible (sfx : Nat → String) : Prop where
  inj : Function.Injective sfx
  noU : ∀ m, '_' ∉ (sfx m).data

theorem mint_data (sfx : Nat → String) (pfx : String) (j : Nat) :
    (mint sfx pfx j).data = pfx.data ++ '_' :: (sfx j).data := by
  simp [mint, String.data_append]

theorem mint_underscore_mem (sfx : Nat → String) (pfx : String) (j : Nat) :
    '_' ∈ (mint sfx pfx j).data := by
  rw [mint_data]
  exact List.mem_append.mpr (Or.inr (List.mem_cons_self _ _))

theorem no_underscore_split :
    ∀ (p1 : List Char) (s1 : List Char) (p2 s2 : List Char),
      '_' ∉ p1 → '_' ∉ p2 →
      p1 ++ '_' :: s1 = p2 ++ '_' :: s2 → p1 = p2 ∧ s1 = s2 := by
  intro p1
  induction p1 with
  | nil =>
    intro s1 p2 s2 _ hp2 h
    cases p2 with
    | nil =>
      simp only [List.nil_append] at h
      exact ⟨rfl, by injection h⟩
    | cons c p2' =>
      simp only [List.nil_append, List.cons_append] at h
      exfalso
      apply hp2
      have hc : '_' = c := by injection h
      rw [← hc] at *
      exact List.mem_cons_self _ _
  | cons c p1' ih =>
    intro s1 p2 s2 hp1 hp2 h
    cases p2 with
    | nil =>
      simp only [List.cons_append, List.nil_append] at h
      exfalso
      apply hp1
      have hc : c = '_' := by injection h
      rw [hc]
      exact List.mem_cons_self _ _
    | cons c2 p2' =>
      simp only [List.cons_append] at h
      have hc : c = c2 := by injection h
      have ht : p1' ++ '_' :: s1 = p2' ++ '_' :: s2 := by injection h
      have hrec := ih s1 p2' s2
        (fun hm => hp1 (List.mem_cons_of_mem c hm))
        (fun hm => hp2 (List.mem_cons_of_mem c2 hm)) ht
      exact ⟨by rw [hc, hrec.1], hrec.2⟩

theorem string_data_inj {a b : String} (h : a.data = b.data) : a = b := by
  cases a; cases b; exact congrArg String.mk h

theorem mint_eq_parts {sa sb : Nat → String} {p q : String} {j k : Nat}
    (hp : '_' ∉ p.data) (hq : '_' ∉ q.data)
    (h : mint sa p j = mint sb q k) : p = q ∧ sa j = sb k := by
  have hd := congrArg String.data h
  rw [mint_data, mint_data] at hd
  obtain ⟨h1, h2⟩ :=
    no_underscore_split p.data (sa j).data q.data (sb k).data hp hq hd
  exact ⟨string_data_inj h1, string_data_inj h2⟩

/-! ### Relating two runs of the walker

Two runs of the same simplification on the same input, drawing suffixes
from streams `s` (starting at position `k1`) and `t` (starting at `k2`),
stay in lock step: they mint ids at the same moments, so after `c` mints
their registries and produced nodes agree up to the pairing
`mint s pfx (k1 + j) ↔ mint t pfx (k2 + j)` for `j < c`.  Named style
keys are identical on both sides and contain no underscore, which keeps
them disjoint from minted ids. -/

section TwoRuns

variable (s t : Nat → String) (k1 k2 : Nat)

/-- Two registry keys correspond: either the same underscore-free named
key, or the two runs' mints of the same prefix at the same mint
position. -/
def KeyRel (c : Nat) (a b : String) : Prop :=
  (a = b ∧ '_' ∉ a.data) ∨
  ∃ j pfx, j < c ∧ '_' ∉ pfx.data ∧
    a = mint s pfx (k1 + j) ∧ b = mint t pfx (k2 + j)

/-- Corresponding field values: equal literals, or corresponding
reference ids. -/
def FvRel (c : Nat) : FieldVal → FieldVal → Prop
  | .lit a, .lit b => a = b
  | .ref a, .ref b => KeyRel s t k1 k2 c a b
  | _, _ => False

/-- Corresponding accumulator field lists. -/
def FieldsRel (c : Nat) (f1 f2 : List (String × FieldVal)) : Prop :=
  List.Forall₂ (fun p q => p.1 = q.1 ∧ FvRel s t k1 k2 c p.2 q.2) f1 f2

/-- Corresponding registries: pointwise corresponding keys with equal
stored values. -/
def GvRel (c : Nat) (gv1 gv2 : Registry) : Prop :=
  List.Forall₂ (fun p q => KeyRel s t k1 k2 c p.1 q.1 ∧ p.2 = q.2) gv1 gv2

/-- Corresponding walker states after `c` mints on each side. -/
def StRel (c : Nat) (st1 st2 : WalkSt) : Prop :=
  st1.gen.suffixes = s ∧ st2.gen.suffixes = t ∧
  st1.gen.k = k1 + c ∧ st2.gen.k = k2 + c ∧
  GvRel s t k1 k2 c st1.gv st2.gv

mutual
/-- Corresponding simplified nodes. -/
def NodeRel (c : Nat) : SNode → SNode → Prop
  | .mk i1 n1 t1 f1 c1 d1, .mk i2 n2 t2 f2 c2 d2 =>
    i1 = i2 ∧ n1 = n2 ∧ t1 = t2 ∧
    FieldsRel s t k1 k2 c f1 f2 ∧ NodeListRel c c1 c2 ∧ d1 = d2

/-- Corresponding simplified node lists. -/
def NodeListRel (c : Nat) : List SNode → List SNode → Prop
  | [], [] => True
  | a :: ar, b :: br => NodeRel c a b ∧ NodeListRel c ar br
  | _, _ => False
end

theorem KeyRel_mono {c c' : Nat} (hcc : c ≤ c') {a b : String}
    (h : KeyRel s t k1 k2 c a b) : KeyRel s t k1 k2 c' a b := by
  rcases h with h | ⟨j, pfx, hj, hpfx, ha, hb⟩
  · exact Or.inl h
  · exact Or.inr ⟨j, pfx, lt_of_lt_of_le hj hcc, hpfx, ha, hb⟩

theorem FvRel_mono {c c' : Nat} (hcc : c ≤ c') {a b : FieldVal}
    (h : FvRel s t k1 k2 c a b) : FvRel s t k1 k2 c' a b := by
  cases a <;> cases b <;> simp only [FvRel] at h ⊢
  · exact KeyRel_mono s t k1 k2 hcc h
  · exact h

theorem FieldsRel_mono {c c' : Nat} (hcc : c ≤ c')
    {f1 f2 : List (String × FieldVal)} (h : FieldsRel s t k1 k2 c f1 f2) :
    FieldsRel s t k1 k2 c' f1 f2 :=
  List.Forall₂.imp (fun _ _ hpq =>
    ⟨hpq.1, FvRel_mono s t k1 k2 hcc hpq.2⟩) h

theorem GvRel_mono {c c' : Nat} (hcc : c ≤ c') {gv1 gv2 : Registry}
    (h : GvRel s t k1 k2 c gv1 gv2) : GvRel s t k1 k2 c' gv1 gv2 :=
  List.Forall₂.imp (fun _ _ hpq =>
    ⟨KeyRel_mono s t k1 k2 hcc hpq.1, hpq.2⟩) h

mutual
theorem NodeRel_mono {c c' : Nat} (hcc : c ≤ c') :
    ∀ {a b : SNode}, NodeRel s t k1 k2 c a b → NodeRel s t k1 k2 c' a b := by
  intro a b h
  match a, b with
  | .mk i1 n1 t1 f1 c1 d1, .mk i2 n2 t2 f2 c2 d2 =>
    obtain ⟨h1, h2, h3, h4, h5, h6⟩ := h
    exact ⟨h1, h2, h3, FieldsRel_mono s t k1 k2 hcc h4,
      NodeListRel_mono hcc h5, h6⟩

theorem NodeListRel_mono {c c' : Nat} (hcc : c ≤ c') :
    ∀ {l1 l2 : List SNode}, NodeListRel s t k1 k2 c l1 l2 →
      NodeListRel s t k1 k2 c' l1 l2 := by
  intro l1 l2 h
  match l1, l2 with
  | [], [] => exact trivial
  | a :: ar, b :: br =>
    exact ⟨NodeRel_mono hcc h.1, NodeListRel_mono hcc h.2⟩
  | [], _ :: _ => exact absurd h (by simp [NodeListRel])
  | _ :: _, [] => exact absurd h (by simp [NodeListRel])
end

end TwoRuns

/-- Cleanliness of one extractor write: anonymous prefixes and style
names contain no underscore (true of the source's fixed prefixes
`layout`/`style`/`fill`/`stroke`/`effect`; for named styles it rules out
the measure-zero collision of a human-readable style name with a minted
id). -/
def FieldOp.clean : FieldOp → Prop
  | .style _ (.anon pfx) _ => '_' ∉ pfx.data
  | .style _ (.named nm) _ => '_' ∉ nm.data
  | .plain _ _ => True

/-- Every write of every selected extractor is clean. -/
def CleanOps (exts : List Extractor) : Prop :=
  ∀ e ∈ exts, ∀ n parent op, op ∈ e n parent → op.clean

theorem forall₂_mem_left {α β : Type} {R : α → β → Prop} :
    ∀ {l1 : List α} {l2 : List β}, List.Forall₂ R l1 l2 →
      ∀ a ∈ l1, ∃ b, R a b := by
  intro l1 l2 h
  induction h with
  | nil => intro a ha; cases ha
  | cons hab htail ih =>
    intro a ha
    rcases List.mem_cons.mp ha with rfl | ha'
    · exact ⟨_, hab⟩
    · exact ih a ha'

theorem forall₂_mem_right {α β : Type} {R : α → β → Prop} :
    ∀ {l1 : List α} {l2 : List β}, List.Forall₂ R l1 l2 →
      ∀ b ∈ l2, ∃ a, R a b := by
  intro l1 l2 h
  induction h with
  | nil => intro b hb; cases hb
  | cons hab htail ih =>
    intro b hb
    rcases List.mem_cons.mp hb with rfl | hb'
    · exact ⟨_, hab⟩
    · exact ih b hb'

section TwoRunsSim

variable (s t : Nat → String) (k1 k2 : Nat)

theorem gvrel_fresh_left (hs : Admissible s) {c : Nat} {gv1 gv2 : Registry}
    (hg : GvRel s t k1 k2 c gv1 gv2) {pfx : String} (hp : '_' ∉ pfx.data) :
    mint s pfx (k1 + c) ∉ gv1.map Prod.fst := by
  intro hmem
  obtain ⟨pr, hpr, hfst⟩ := List.mem_map.mp hmem
  obtain ⟨q, hq⟩ := forall₂_mem_left hg pr hpr
  rcases hq.1 with ⟨_, hnoU⟩ | ⟨j, pfx', hj, hpfx', ha, _⟩
  · rw [hfst] at hnoU
    exact hnoU (mint_underscore_mem s pfx (k1 + c))
  · rw [ha] at hfst
    obtain ⟨_, hsfx⟩ := mint_eq_parts hpfx' hp hfst
    have := hs.inj hsfx
    omega

theorem gvrel_fresh_right (ht : Admissible t) {c : Nat} {gv1 gv2 : Registry}
    (hg : GvRel s t k1 k2 c gv1 gv2) {pfx : String} (hp : '_' ∉ pfx.data) :
    mint t pfx (k2 + c) ∉ gv2.map Prod.fst := by
  intro hmem
  obtain ⟨pr, hpr, hfst⟩ := List.mem_map.mp hmem
  obtain ⟨q, hq⟩ := forall₂_mem_right hg pr hpr
  rcases hq.1 with ⟨heq, hnoU⟩ | ⟨j, pfx', hj, hpfx', _, hb⟩
  · rw [heq, hfst] at hnoU
    exact hnoU (mint_underscore_mem t pfx (k2 + c))
  · rw [hb] at hfst
    obtain ⟨_, hsfx⟩ := mint_eq_parts hpfx' hp hfst
    have := ht.inj hsfx
    omega

theorem gvrel_find?_rel {c : Nat} {gv1 gv2 : Registry} {v : StyleValue}
    (hg : GvRel s t k1 k2 c gv1 gv2) :
    (gv1.find? (fun p => p.2 == v) = none ∧
      gv2.find? (fun p => p.2 == v) = none) ∨
    (∃ p q, gv1.find? (fun p' => p'.2 == v) = some p ∧
      gv2.find? (fun q' => q'.2 == v) = some q ∧
      KeyRel s t k1 k2 c p.1 q.1 ∧ p.2 = q.2) := by
  induction hg with
  | nil => exact Or.inl ⟨rfl, rfl⟩
  | cons hab htail ih =>
    rename_i p q l1 l2
    cases hveq : (p.2 == v) with
    | true =>
      have hqv : (q.2 == v) = true := by rw [← hab.2]; exact hveq
      exact Or.inr ⟨p, q, List.find?_cons_of_pos _ hveq,
        List.find?_cons_of_pos _ hqv, hab.1, hab.2⟩
    | false =>
      have hqv : (q.2 == v) = false := by rw [← hab.2]; exact hveq
      rcases ih with ⟨h1, h2⟩ | ⟨p', q', h1, h2, h3, h4⟩
      · refine Or.inl ⟨?_, ?_⟩
        · rw [List.find?_cons_of_neg _ (by simp [hveq])]
          exact h1
        · rw [List.find?_cons_of_neg _ (by simp [hqv])]
          exact h2
      · refine Or.inr ⟨p', q', ?_, ?_, h3, h4⟩
        · rw [List.find?_cons_of_neg _ (by simp [hveq])]
          exact h1
        · rw [List.find?_cons_of_neg _ (by simp [hqv])]
          exact h2

theorem setKey_rel_named {c : Nat} {gv1 gv2 : Registry}
    (hg : GvRel s t k1 k2 c gv1 gv2) {nm : String} {v : StyleValue}
    (hnm : '_' ∉ nm.data) :
    GvRel s t k1 k2 c (setKey gv1 nm v) (setKey gv2 nm v) := by
  induction hg with
  | nil =>
    exact List.Forall₂.cons ⟨Or.inl ⟨rfl, hnm⟩, rfl⟩ List.Forall₂.nil
  | cons hab htail ih =>
    rename_i p q l1 l2
    obtain ⟨pk, pv⟩ := p
    obtain ⟨qk, qv⟩ := q
    rcases hab.1 with ⟨heq, hnoU⟩ | ⟨j, pfx, hj, hpfx, ha, hb⟩
    · simp only at heq
      by_cases hpk : pk = nm
      · have hqk : qk = nm := by rw [← heq]; exact hpk
        simp only [setKey, if_pos hpk, if_pos hqk]
        exact List.Forall₂.cons ⟨hab.1, rfl⟩ htail
      · have hqk : qk ≠ nm := fun h => hpk (heq.trans h)
        simp only [setKey, if_neg hpk, if_neg hqk]
        exact List.Forall₂.cons hab ih
    · simp only at ha hb
      have hpk : pk ≠ nm := fun h => hnm (by
        rw [← h, ha]
        exact mint_underscore_mem s pfx (k1 + j))
      have hqk : qk ≠ nm := fun h => hnm (by
        rw [← h, hb]
        exact mint_underscore_mem t pfx (k2 + j))
      simp only [setKey, if_neg hpk, if_neg hqk]
      exact List.Forall₂.cons hab ih

theorem alSet_fields_rel {c : Nat} {f1 f2 : List (String × FieldVal)}
    (hf : FieldsRel s t k1 k2 c f1 f2) {key : String} {v1 v2 : FieldVal}
    (hv : FvRel s t k1 k2 c v1 v2) :
    FieldsRel s t k1 k2 c (alSet f1 key v1) (alSet f2 key v2) := by
  induction hf with
  | nil => exact List.Forall₂.cons ⟨rfl, hv⟩ List.Forall₂.nil
  | cons hab htail ih =>
    rename_i p q l1 l2
    obtain ⟨pk, pv⟩ := p
    obtain ⟨qk, qv⟩ := q
    have heq : pk = qk := hab.1
    by_cases hpk : pk = key
    · have hqk : qk = key := by rw [← heq]; exact hpk
      simp only [alSet, if_pos hpk, if_pos hqk]
      exact List.Forall₂.cons ⟨heq, hv⟩ htail
    · have hqk : qk ≠ key := fun h => hpk (heq.trans h)
      simp only [alSet, if_neg hpk, if_neg hqk]
      exact List.Forall₂.cons hab ih

theorem applyOp_sim (hs : Admissible s) (ht : Admissible t)
    {c : Nat} {st1 st2 : WalkSt} {f1 f2 : List (String × FieldVal)}
    {op : FieldOp}
    (hst : StRel s t k1 k2 c st1 st2) (hf : FieldsRel s t k1 k2 c f1 f2)
    (hop : op.clean) :
    ∃ c', c ≤ c' ∧
      StRel s t k1 k2 c' (applyOp st1 f1 op).1 (applyOp st2 f2 op).1 ∧
      FieldsRel s t k1 k2 c' (applyOp st1 f1 op).2 (applyOp st2 f2 op).2 := by
  obtain ⟨hsuf1, hsuf2, hk1, hk2, hgv⟩ := hst
  cases op with
  | plain field x =>
    refine ⟨c, le_refl c, ⟨hsuf1, hsuf2, hk1, hk2, hgv⟩, ?_⟩
    exact alSet_fields_rel s t k1 k2 hf rfl
  | style field kind v =>
    cases kind with
    | named nm =>
      refine ⟨c, le_refl c, ⟨hsuf1, hsuf2, hk1, hk2, ?_⟩, ?_⟩
      · exact setKey_rel_named s t k1 k2 hgv hop
      · exact alSet_fields_rel s t k1 k2 hf (Or.inl ⟨rfl, hop⟩)
    | anon pfx =>
      rcases gvrel_find?_rel s t k1 k2 (v := v) hgv with
        ⟨h1, h2⟩ | ⟨p, q, h1, h2, h3, h4⟩
      · have hid1 : mint s pfx (k1 + c) ∉ st1.gv.map Prod.fst :=
          gvrel_fresh_left s t k1 k2 hs hgv hop
        have hid2 : mint t pfx (k2 + c) ∉ st2.gv.map Prod.fst :=
          gvrel_fresh_right s t k1 k2 ht hgv hop
        refine ⟨c + 1, Nat.le_succ c, ?_, ?_⟩
        · simp only [applyOp, findOrCreateVar_not_found h1,
            findOrCreateVar_not_found h2]
          refine ⟨hsuf1, hsuf2, by simp [hk1]; omega, by simp [hk2]; omega, ?_⟩
          show GvRel s t k1 k2 (c + 1)
            (setKey st1.gv (pfx ++ "_" ++ st1.gen.suffixes st1.gen.k) v)
            (setKey st2.gv (pfx ++ "_" ++ st2.gen.suffixes st2.gen.k) v)
          rw [hsuf1, hsuf2, hk1, hk2]
          show GvRel s t k1 k2 (c + 1)
            (setKey st1.gv (mint s pfx (k1 + c)) v)
            (setKey st2.gv (mint t pfx (k2 + c)) v)
          rw [setKey_fresh _ _ _ hid1, setKey_fresh _ _ _ hid2]
          exact List.rel_append (GvRel_mono s t k1 k2 (Nat.le_succ c) hgv)
            (List.Forall₂.cons
              ⟨Or.inr ⟨c, pfx, Nat.lt_succ_self c, hop, rfl, rfl⟩, rfl⟩
              List.Forall₂.nil)
        · simp only [applyOp, findOrCreateVar_not_found h1,
            findOrCreateVar_not_found h2]
          apply alSet_fields_rel s t k1 k2
            (FieldsRel_mono s t k1 k2 (Nat.le_succ c) hf)
          show KeyRel s t k1 k2 (c + 1)
            (pfx ++ "_" ++ st1.gen.suffixes st1.gen.k)
            (pfx ++ "_" ++ st2.gen.suffixes st2.gen.k)
          rw [hsuf1, hsuf2, hk1, hk2]
          exact Or.inr ⟨c, pfx, Nat.lt_succ_self c, hop, rfl, rfl⟩
      · refine ⟨c, le_refl c, ?_, ?_⟩
        · simp only [applyOp, findOrCreateVar_found h1,
            findOrCreateVar_found h2]
          exact ⟨hsuf1, hsuf2, hk1, hk2, hgv⟩
        · simp only [applyOp, findOrCreateVar_found h1,
            findOrCreateVar_found h2]
          exact alSet_fields_rel s t k1 k2 hf h3

theorem applyOps_sim (hs : Admissible s) (ht : Admissible t) :
    ∀ (ops : List FieldOp) {c : Nat} {st1 st2 : WalkSt}
      {f1 f2 : List (String × FieldVal)},
      StRel s t k1 k2 c st1 st2 → FieldsRel s t k1 k2 c f1 f2 →
      (∀ op ∈ ops, op.clean) →
      ∃ c', c ≤ c' ∧
        StRel s t k1 k2 c' (applyOps st1 f1 ops).1 (applyOps st2 f2 ops).1 ∧
        FieldsRel s t k1 k2 c' (applyOps st1 f1 ops).2
          (applyOps st2 f2 ops).2 := by
  intro ops
  induction ops with
  | nil =>
    intro c st1 st2 f1 f2 hst hf _
    exact ⟨c, le_refl c, hst, hf⟩
  | cons op rest ih =>
    intro c st1 st2 f1 f2 hst hf hclean
    obtain ⟨c1, hc1, hst1, hf1⟩ := applyOp_sim s t k1 k2 hs ht hst hf
      (hclean op (List.mem_cons_self op rest))
    obtain ⟨c2, hc2, hst2, hf2⟩ := ih hst1 hf1
      (fun o ho => hclean o (List.mem_cons_of_mem op ho))
    exact ⟨c2, le_trans hc1 hc2, hst2, hf2⟩

end TwoRunsSim

theorem nodeListRel_all_types {s t : Nat → String} {k1 k2 c : Nat} :
    ∀ {l1 l2 : List SNode}, NodeListRel s t k1 k2 c l1 l2 →
      l1.all (fun ch => SVG_ELIGIBLE_TYPES.contains ch.type) =
      l2.all (fun ch => SVG_ELIGIBLE_TYPES.contains ch.type) := by
  intro l1
  induction l1 with
  | nil =>
    intro l2 h
    cases l2 with
    | nil => rfl
    | cons b br => exact absurd h (by simp [NodeListRel])
  | cons a ar ih =>
    intro l2 h
    cases l2 with
    | nil => exact absurd h (by simp [NodeListRel])
    | cons b br =>
      obtain ⟨hab, htail⟩ := h
      have hty : a.type = b.type := by
        match a, b with
        | .mk i1 n1 t1 f1 c1 d1, .mk i2 n2 t2 f2 c2 d2 =>
          exact hab.2.2.1
      simp only [List.all_cons, hty, ih htail]

mutual
/-- Two runs of the walker from corresponding states produce
corresponding nodes and corresponding final states. -/
theorem walkNode_sim (exts : List Extractor) (opts : TraversalOptions)
    (s t : Nat → String) (k1 k2 : Nat)
    (hs : Admissible s) (ht : Admissible t) (hclean : CleanOps exts)
    (n : RawNode) :
    ∀ (parent : Option RawNode) (depth c : Nat) (st1 st2 : WalkSt),
      StRel s t k1 k2 c st1 st2 →
      ∃ c', c ≤ c' ∧
        NodeRel s t k1 k2 c' (walkNode exts opts parent depth st1 n).1
          (walkNode exts opts parent depth st2 n).1 ∧
        StRel s t k1 k2 c' (walkNode exts opts parent depth st1 n).2
          (walkNode exts opts parent depth st2 n).2 := by
  match n with
  | .mk i nm ty vis cs =>
    intro parent depth c st1 st2 hst
    have hopsclean : ∀ op ∈ ((exts.map
        (fun e => e (RawNode.mk i nm ty vis cs) parent)).flatten),
        op.clean := by
      intro op hop
      obtain ⟨l, hl, hopl⟩ := List.mem_flatten.mp hop
      obtain ⟨e, he, rfl⟩ := List.mem_map.mp hl
      exact hclean e he _ parent op hopl
    obtain ⟨c1, hc1, hst1, hf1⟩ := applyOps_sim s t k1 k2 hs ht _
      hst List.Forall₂.nil hopsclean
    rw [walkNode, walkNode]
    simp only
    by_cases hdesc : (match opts.maxDepth with
      | none => true
      | some d => decide (depth < d)) = true
    · rw [if_pos hdesc, if_pos hdesc]
      obtain ⟨c2, hc2, hrel2, hst2⟩ := walkList_sim exts opts s t k1 k2
        hs ht hclean cs (some (RawNode.mk i nm ty vis cs)) (depth + 1)
        c1 _ _ hst1
      by_cases hhook : opts.afterChildren = true
      · rw [if_pos hhook, if_pos hhook]
        by_cases hcond : (ty = "FRAME" ∨ ty = "GROUP" ∨ ty = "INSTANCE") ∧
            ((walkList exts opts (some (RawNode.mk i nm ty vis cs))
              (depth + 1) (applyOps st1 []
                ((exts.map (fun e => e (RawNode.mk i nm ty vis cs)
                  parent)).flatten)).1 cs).1.all
              (fun ch => SVG_ELIGIBLE_TYPES.contains ch.type) = true)
        · obtain ⟨hcont, hall1⟩ := hcond
          have hall2 : ((walkList exts opts
              (some (RawNode.mk i nm ty vis cs)) (depth + 1)
              (applyOps st2 [] ((exts.map (fun e => e
                (RawNode.mk i nm ty vis cs) parent)).flatten)).1 cs).1.all
              (fun ch => SVG_ELIGIBLE_TYPES.contains ch.type) = true) := by
            rw [← nodeListRel_all_types hrel2]
            exact hall1
          rw [collapse_fires hcont hall1, collapse_fires hcont hall2]
          exact ⟨c2, le_trans hc1 hc2,
            ⟨rfl, rfl, rfl, FieldsRel_mono s t k1 k2 hc2 hf1, trivial, rfl⟩,
            hst2⟩
        · have hcond2 : ¬((ty = "FRAME" ∨ ty = "GROUP" ∨ ty = "INSTANCE") ∧
              ((walkList exts opts (some (RawNode.mk i nm ty vis cs))
                (depth + 1) (applyOps st2 []
                  ((exts.map (fun e => e (RawNode.mk i nm ty vis cs)
                    parent)).flatten)).1 cs).1.all
                (fun ch => SVG_ELIGIBLE_TYPES.contains ch.type) = true)) := by
            intro hand
            apply hcond
            refine ⟨hand.1, ?_⟩
            rw [nodeListRel_all_types hrel2]
            exact hand.2
          rw [collapse_skips hcond, collapse_skips hcond2]
          exact ⟨c2, le_trans hc1 hc2,
            ⟨rfl, rfl, rfl, FieldsRel_mono s t k1 k2 hc2 hf1, hrel2, rfl⟩,
            hst2⟩
      · rw [if_neg hhook, if_neg hhook]
        exact ⟨c2, le_trans hc1 hc2,
          ⟨rfl, rfl, rfl, FieldsRel_mono s t k1 k2 hc2 hf1, hrel2, rfl⟩,
          hst2⟩
    · rw [if_neg hdesc, if_neg hdesc]
      exact ⟨c1, hc1, ⟨rfl, rfl, rfl, hf1, trivial, rfl⟩, hst1⟩

/-- List companion of `walkNode_sim`. -/
theorem walkList_sim (exts : List Extractor) (opts : TraversalOptions)
    (s t : Nat → String) (k1 k2 : Nat)
    (hs : Admissible s) (ht : Admissible t) (hclean : CleanOps exts)
    (l : List RawNode) :
    ∀ (parent : Option RawNode) (depth c : Nat) (st1 st2 : WalkSt),
      StRel s t k1 k2 c st1 st2 →
      ∃ c', c ≤ c' ∧
        NodeListRel s t k1 k2 c' (walkList exts opts parent depth st1 l).1
          (walkList exts opts parent depth st2 l).1 ∧
        StRel s t k1 k2 c' (walkList exts opts parent depth st1 l).2
          (walkList exts opts parent depth st2 l).2 := by
  match l with
  | [] =>
    intro parent depth c st1 st2 hst
    rw [walkList, walkList]
    exact ⟨c, le_refl c, trivial, hst⟩
  | n :: rest =>
    intro parent depth c st1 st2 hst
    obtain ⟨c1, hc1, hrel1, hst1⟩ := walkNode_sim exts opts s t k1 k2
      hs ht hclean n parent depth c st1 st2 hst
    obtain ⟨c2, hc2, hrel2, hst2⟩ := walkList_sim exts opts s t k1 k2
      hs ht hclean rest parent depth c1 _ _ hst1
    rw [walkList, walkList]
    exact ⟨c2, le_trans hc1 hc2,
      ⟨NodeRel_mono s t k1 k2 hc2 hrel1, hrel2⟩, hst2⟩
end

/-! ### Dereferencing style ids -/

/-- A field value with its style reference resolved against the final
registry: the stored style value (or `none` for a dangling reference),
or the literal unchanged. -/
inductive DVal where
  | style (v : Option StyleValue)
  | lit (x : String)
deriving DecidableEq, Repr

/-- A simplified node with every style reference resolved. -/
inductive DNode where
  | mk (id name type : String) (fields : List (String × DVal))
       (children : List DNode) (downloadedImage : Option EnrichedImage)

/-- Resolve one field value. -/
def derefVal (gv : Registry) : FieldVal → DVal
  | .ref id => .style (alGet gv id)
  | .lit x => .lit x

mutual
/-- Resolve every style reference in a node against the registry. -/
def derefNode (gv : Registry) : SNode → DNode
  | .mk i n t f cs d =>
    .mk i n t (f.map (fun p => (p.1, derefVal gv p.2))) (derefList gv cs) d

/-- List companion of `derefNode`. -/
def derefList (gv : Registry) : List SNode → List DNode
  | [] => []
  | n :: rest => derefNode gv n :: derefList gv rest
end

theorem keyRel_eq_iff {s t : Nat → String} {k1 k2 c : Nat}
    (hs : Admissible s) (ht : Admissible t) {a b a' b' : String}
    (hstored : KeyRel s t k1 k2 c a b) (hquery : KeyRel s t k1 k2 c a' b') :
    (a = a') ↔ (b = b') := by
  rcases hstored with ⟨heqs, hnoUs⟩ | ⟨j, pfx, hj, hpfx, ha, hb⟩ <;>
    rcases hquery with ⟨heqq, hnoUq⟩ | ⟨j', pfx', hj', hpfx', ha', hb'⟩
  · rw [← heqs, ← heqq]
  · refine iff_of_false ?_ ?_
    · intro h
      rw [h, ha'] at hnoUs
      exact hnoUs (mint_underscore_mem s pfx' (k1 + j'))
    · intro h
      rw [heqs, h, hb'] at hnoUs
      exact hnoUs (mint_underscore_mem t pfx' (k2 + j'))
  · refine iff_of_false ?_ ?_
    · intro h
      rw [← h, ha] at hnoUq
      exact hnoUq (mint_underscore_mem s pfx (k1 + j))
    · intro h
      rw [heqq, ← h, hb] at hnoUq
      exact hnoUq (mint_underscore_mem t pfx (k2 + j))
  · constructor
    · intro h
      rw [ha, ha'] at h
      obtain ⟨hpp, hss⟩ := mint_eq_parts hpfx hpfx' h
      have hjj : k1 + j = k1 + j' := hs.inj hss
      rw [hb, hb', hpp]
      have : j = j' := by omega
      rw [this]
    · intro h
      rw [hb, hb'] at h
      obtain ⟨hpp, hss⟩ := mint_eq_parts hpfx hpfx' h
      have hjj : k2 + j = k2 + j' := ht.inj hss
      rw [ha, ha', hpp]
      have : j = j' := by omega
      rw [this]

theorem alGet_rel {s t : Nat → String} {k1 k2 c : Nat}
    (hs : Admissible s) (ht : Admissible t) {gv1 gv2 : Registry}
    (hg : GvRel s t k1 k2 c gv1 gv2) {a b : String}
    (hk : KeyRel s t k1 k2 c a b) :
    alGet gv1 a = alGet gv2 b := by
  induction hg with
  | nil => rfl
  | cons hab htail ih =>
    rename_i p q l1 l2
    obtain ⟨pk, pv⟩ := p
    obtain ⟨qk, qv⟩ := q
    have hiff := keyRel_eq_iff hs ht hab.1 hk
    by_cases hpa : pk = a
    · rw [alGet, if_pos hpa, alGet, if_pos (hiff.mp hpa)]
      exact congrArg some hab.2
    · rw [alGet, if_neg hpa, alGet, if_neg (fun h => hpa (hiff.mpr h))]
      exact ih

theorem fieldsMap_deref_eq {s t : Nat → String} {k1 k2 c : Nat}
    (hs : Admissible s) (ht : Admissible t) {gv1 gv2 : Registry}
    (hg : GvRel s t k1 k2 c gv1 gv2)
    {f1 f2 : List (String × FieldVal)} (hf : FieldsRel s t k1 k2 c f1 f2) :
    f1.map (fun p => (p.1, derefVal gv1 p.2)) =
      f2.map (fun p => (p.1, derefVal gv2 p.2)) := by
  induction hf with
  | nil => rfl
  | cons hab htail ih =>
    rename_i p q l1 l2
    simp only [List.map_cons, ih]
    obtain ⟨hkey, hv⟩ := hab
    have hval : derefVal gv1 p.2 = derefVal gv2 q.2 := by
      cases hp2 : p.2 with
      | ref a1 =>
        cases hq2 : q.2 with
        | ref b1 =>
          rw [hp2, hq2] at hv
          exact congrArg DVal.style (alGet_rel hs ht hg hv)
        | lit x =>
          rw [hp2, hq2] at hv
          exact absurd hv (by simp [FvRel])
      | lit x =>
        cases hq2 : q.2 with
        | ref b1 =>
          rw [hp2, hq2] at hv
          exact absurd hv (by simp [FvRel])
        | lit y =>
          rw [hp2, hq2] at hv
          rw [derefVal, derefVal, hv]
    rw [hkey, hval]

mutual
/-- Related nodes dereference to equal resolved nodes against related
registries. -/
theorem derefNode_rel {s t : Nat → String} {k1 k2 c : Nat}
    (hs : Admissible s) (ht : Admissible t) {gv1 gv2 : Registry}
    (hg : GvRel s t k1 k2 c gv1 gv2) :
    ∀ n1 n2, NodeRel s t k1 k2 c n1 n2 →
      derefNode gv1 n1 = derefNode gv2 n2 := by
  intro n1 n2 hn
  match n1, n2 with
  | .mk i1 nm1 t1 f1 c1 d1, .mk i2 nm2 t2 f2 c2 d2 =>
    obtain ⟨h1, h2, h3, h4, h5, h6⟩ := hn
    rw [derefNode, derefNode, h1, h2, h3, h6,
      fieldsMap_deref_eq hs ht hg h4,
      derefList_rel hs ht hg c1 c2 h5]

/-- List companion of `derefNode_rel`. -/
theorem derefList_rel {s t : Nat → String} {k1 k2 c : Nat}
    (hs : Admissible s) (ht : Admissible t) {gv1 gv2 : Registry}
    (hg : GvRel s t k1 k2 c gv1 gv2) :
    ∀ l1 l2, NodeListRel s t k1 k2 c l1 l2 →
      derefList gv1 l1 = derefList gv2 l2 := by
  intro l1 l2 hl
  match l1, l2 with
  | [], [] => rfl
  | a :: ar, b :: br =>
    rw [derefList, derefList, derefNode_rel hs ht hg a b hl.1,
      derefList_rel hs ht hg ar br hl.2]
  | [], _ :: _ => exact absurd hl (by simp [NodeListRel])
  | _ :: _, [] => exact absurd hl (by simp [NodeListRel])
end

/-- A simplified design with every style reference inlined: the
observable content of the output once the arbitrary minted id strings
are substituted away. -/
def derefDesign (d : SimplifiedDesign) :
    String × List DNode × List (String × String) × List (String × String) :=
  (d.name, derefList d.styles d.nodes, d.components, d.componentSets)

/-- C1 amended.  For any two admissible positions of the random stream
(distinct non-colliding suffixes, such as two successive calls sharing
one global stream), simplifying the same raw response with the same
extractor selection and options produces outputs that are identical
after substituting every style id by its stored style value: the node
trees, inlined styles, document name and side tables all agree — only
the randomly minted id strings themselves differ. -/
theorem simplify_deterministic_up_to_ids (resp : APIResponse)
    (exts : List Extractor) (opts : TraversalOptions) (g1 g2 : IdGen)
    (hs : Admissible g1.suffixes) (ht : Admissible g2.suffixes)
    (hclean : CleanOps exts) :
    derefDesign (simplifyRawFigmaObject resp exts opts g1).1 =
      derefDesign (simplifyRawFigmaObject resp exts opts g2).1 := by
  obtain ⟨c, hc, hrel, hst⟩ := walkList_sim exts opts g1.suffixes
    g2.suffixes g1.k g2.k hs ht hclean (parseAPIResponse resp).rawNodes
    none 0 0 ⟨[], g1⟩ ⟨[], g2⟩
    ⟨rfl, rfl, (Nat.add_zero g1.k).symm, (Nat.add_zero g2.k).symm,
      List.Forall₂.nil⟩
  unfold simplifyRawFigmaObject derefDesign
  simp only
  rw [derefList_rel hs ht hst.2.2.2.2 _ _ hrel]

/-- Witness for `simplify_deterministic_up_to_ids`: the one-rectangle
response with the fill-registering extractor, run from two different
streams at two different positions. -/
theorem simplify_deterministic_up_to_ids_witness :
    derefDesign (simplifyRawFigmaObject oneRectResponse
      [fillRegisteringExtractor] ⟨none, true⟩
      ⟨fun k => String.mk (List.replicate (k + 1) 'A'), 0⟩).1 =
    derefDesign (simplifyRawFigmaObject oneRectResponse
      [fillRegisteringExtractor] ⟨none, true⟩
      ⟨fun k => String.mk (List.replicate (k + 1) 'B'), 5⟩).1 := by
  apply simplify_deterministic_up_to_ids
  · refine ⟨?_, ?_⟩
    · intro a b h
      have hd := congrArg (fun x : String => x.data.length) h
      simp only [List.length_replicate] at hd
      omega
    · intro m hm
      obtain ⟨_, hc⟩ := List.mem_replicate.mp hm
      cases hc
  · refine ⟨?_, ?_⟩
    · intro a b h
      have hd := congrArg (fun x : String => x.data.length) h
      simp only [List.length_replicate] at hd
      omega
    · intro m hm
      obtain ⟨_, hc⟩ := List.mem_replicate.mp hm
      cases hc
  · intro e he n parent op hop
    rcases List.mem_singleton.mp he with rfl
    rcases List.mem_singleton.mp hop with rfl
    show ('_' : Char) ∉ ("fill" : String).data
    decide

end Figma
